import Mathlib

/-!
Verification of the benchpress permutation generator, scope-rule handling,
result ingestion and KPI engine, as a shallow embedding of the repository's
code (backend logic quoted in `VARIANT_SCOPE_FEATURE.md` /
`DISPLAY_RESULTS_FEATURE.md`, frontend logic in the React sources).
-/

namespace Benchpress

/-! ## Permutation generator and scope filter

Embeds `backend/permutations/scope_filter.py` / `generation.py` as quoted in
the design documents: `is_combination_allowed(combination, component_names,
variant_scopes, component_map)` and the filtering loop of
`generate_permutation_data`. Variants are strings; a component map associates
a component name with its ordered variant list; a scope rule is an unordered
pair of variant identifiers of the form `name:index`. -/

/-- A scope (deny) rule: `{variant1: "Comp:idx", variant2: "Comp:idx"}`. -/
structure ScopeRule where
  variant1 : String
  variant2 : String
deriving DecidableEq, Repr

/-- `get_variant_index(comp_name, variant, component_map)`: the index of the
variant value in the component's variant list, `none` when the component or
value is absent. -/
def get_variant_index (comp_name : String) (variant : String)
    (component_map : List (String × List String)) : Option Nat :=
  (component_map.lookup comp_name).bind fun vs => vs.findIdx? (· = variant)

/-- The variant-identifier list `f"{comp_name}:{variant_idx}"` that
`is_combination_allowed` builds for a candidate combination. -/
def combination_variant_ids (component_names : List String)
    (combination : List String)
    (component_map : List (String × List String)) : List String :=
  (component_names.zip combination).filterMap fun nv =>
    (get_variant_index nv.1 nv.2 component_map).map
      (fun idx => nv.1 ++ ":" ++ toString idx)

/-- `is_combination_allowed`: empty rule set allows everything; otherwise a
combination is rejected exactly when some rule's two identifiers are both
among the combination's variant identifiers. -/
def is_combination_allowed (combination : List String)
    (component_names : List String) (variant_scopes : List ScopeRule)
    (component_map : List (String × List String)) : Bool :=
  if variant_scopes.isEmpty then
    true
  else
    let ids := combination_variant_ids component_names combination component_map
    variant_scopes.all fun rule =>
      !(ids.contains rule.variant1 && ids.contains rule.variant2)

/-- `itertools.product(*variant_lists)`: the cartesian product in
lexicographic order, leftmost component slowest. -/
def product : List (List String) → List (List String)
  | [] => [[]]
  | l :: ls => l.flatMap fun x => (product ls).map (fun c => x :: c)

/-- The combination-enumeration core of `generate_permutation_data`:
`for combination in product(*variant_lists): if is_combination_allowed(...)`. -/
def generate_permutation_data (variant_lists : List (List String))
    (component_names : List String) (variant_scopes : List ScopeRule)
    (component_map : List (String × List String)) : List (List String) :=
  (product variant_lists).filter fun combination =>
    is_combination_allowed combination component_names variant_scopes component_map

/-- The worked example of the spec: component `a` with 3 variants, component
`b` with 2 variants. -/
def exampleComponentMap : List (String × List String) :=
  [("a", ["a0", "a1", "a2"]), ("b", ["b0", "b1"])]

/-- The single rule forbidding `(a:0, b:1)`. -/
def exampleRules : List ScopeRule := [⟨"a:0", "b:1"⟩]

/-- The generator run on the worked example. -/
def exampleOutput : List (List String) :=
  generate_permutation_data [["a0", "a1", "a2"], ["b0", "b1"]] ["a", "b"]
    exampleRules exampleComponentMap

theorem sum_map_const {α : Type} (l : List α) (n : ℕ) :
    (l.map fun _ => n).sum = l.length * n := by
  induction l with
  | nil => simp
  | cons x xs ih => simp [ih, Nat.succ_mul, Nat.add_comm]

theorem product_length (ls : List (List String)) :
    (product ls).length = (ls.map List.length).prod := by
  induction ls with
  | nil => rfl
  | cons l ls ih =>
    simp only [product, List.length_flatMap, Function.comp_def, List.length_map,
      List.map_cons, List.prod_cons]
    rw [sum_map_const, ih]

theorem is_combination_allowed_empty (combination : List String)
    (component_names : List String)
    (component_map : List (String × List String)) :
    is_combination_allowed combination component_names [] component_map = true := by
  simp [is_combination_allowed]

theorem contains_eq_false_iff (l : List String) (a : String) :
    l.contains a = false ↔ a ∉ l := by
  simp

theorem is_combination_allowed_iff (combination : List String)
    (component_names : List String) (variant_scopes : List ScopeRule)
    (component_map : List (String × List String)) :
    is_combination_allowed combination component_names variant_scopes
        component_map = true ↔
      ∀ rule ∈ variant_scopes,
        ¬(rule.variant1 ∈ combination_variant_ids component_names combination
              component_map ∧
          rule.variant2 ∈ combination_variant_ids component_names combination
              component_map) := by
  unfold is_combination_allowed
  split
  · next h =>
    simp [List.isEmpty_iff.mp h]
  · simp only [List.all_eq_true, Bool.not_eq_true', Bool.and_eq_false_iff,
      contains_eq_false_iff, not_and]
    constructor
    · intro h rule hrule
      rcases h rule hrule with hc | hc
      · intro h1; exact absurd h1 hc
      · intro _; exact hc
    · intro h rule hrule
      by_cases h1 : rule.variant1 ∈ combination_variant_ids component_names
          combination component_map
      · exact Or.inr (h rule hrule h1)
      · exact Or.inl h1

theorem mem_generate_iff (variant_lists : List (List String))
    (component_names : List String) (variant_scopes : List ScopeRule)
    (component_map : List (String × List String)) (combination : List String) :
    combination ∈ generate_permutation_data variant_lists component_names
        variant_scopes component_map ↔
      combination ∈ product variant_lists ∧
        ∀ rule ∈ variant_scopes,
          ¬(rule.variant1 ∈ combination_variant_ids component_names combination
                component_map ∧
            rule.variant2 ∈ combination_variant_ids component_names combination
                component_map) := by
  unfold generate_permutation_data
  rw [List.mem_filter, is_combination_allowed_iff]

/-- C1: the Permutation Generator returns exactly those tuples of the
cartesian product whose variant-identifier set does not contain both
identifiers of any scope rule; on the worked example (component `a` with 3
variants, component `b` with 2 variants, single rule `(a:0, b:1)`) it returns
exactly 5 of the 6 product tuples. -/
theorem C1_generator_filters_rule_pairs :
    (∀ (variant_lists : List (List String)) (component_names : List String)
        (variant_scopes : List ScopeRule)
        (component_map : List (String × List String)) (combination : List String),
      combination ∈ generate_permutation_data variant_lists component_names
          variant_scopes component_map ↔
        combination ∈ product variant_lists ∧
          ∀ rule ∈ variant_scopes,
            ¬(rule.variant1 ∈ combination_variant_ids component_names combination
                  component_map ∧
              rule.variant2 ∈ combination_variant_ids component_names combination
                  component_map)) ∧
    exampleOutput.length = 5 ∧
    (product [["a0", "a1", "a2"], ["b0", "b1"]]).length = 6 ∧
    ["a0", "b1"] ∉ exampleOutput := by
  refine ⟨mem_generate_iff, ?_, ?_, ?_⟩ <;> decide

/-- C2: with an empty scope-rule set the generator returns the naive
cartesian product unchanged, of size exactly the product of the variant-list
lengths. -/
theorem C2_empty_rules_full_product :
    ∀ (variant_lists : List (List String)) (component_names : List String)
      (component_map : List (String × List String)),
      generate_permutation_data variant_lists component_names [] component_map
          = product variant_lists ∧
      (generate_permutation_data variant_lists component_names []
          component_map).length = (variant_lists.map List.length).prod := by
  intro variant_lists component_names component_map
  have heq : generate_permutation_data variant_lists component_names []
      component_map = product variant_lists := by
    unfold generate_permutation_data
    apply List.filter_eq_self.mpr
    intro a _
    exact is_combination_allowed_empty a component_names component_map
  exact ⟨heq, by rw [heq, product_length]⟩

/-! ## Run records, ingestion validation and the KPI engine

`backend/results_utils.py` itself is not among the source files; its logic is
specified by §4.5/§4.6 of the spec and by the validation rules and formulas
quoted in `DISPLAY_RESULTS_FEATURE.md` (KPI verification section, lines
475-612). The definitions below are modelled from those. -/

/-- One row of a result CSV, in column order (`DISPLAY_RESULTS_FEATURE.md`,
"Format of the result CSV"). Numeric fields are integers / rationals so that
invalid (negative, out-of-range) payloads are representable and validation
can reject them. -/
structure RunRow where
  permutation_item_id : String
  run_id : Int
  test_array : List Int
  HITL_turns_int : Int
  tool_call_int : Int
  ReACT_agent_calls : Int
  forbidden_tool_calls : Int
  time_spent : ℚ
deriving DecidableEq, Repr

/-- One violation found by result-CSV validation, tagged with the row it
occurred in. -/
inductive Violation where
  | unknown_permutation_id (row : Nat) (id : String)
  | invalid_run_id (row : Nat)
  | invalid_test_value (row : Nat)
  | negative_counter (row : Nat)
  | negative_time (row : Nat)
deriving DecidableEq, Repr

/-- Modelled from the spec: the per-row checks of `validate_result_csv`
(`backend/results_utils.py`, absent from the sources) — run id ≥ 1,
test-array values only 0 or 1, no negative counters or time, and the
permutation id present in the template's current Permutation Index. -/
def row_violations (index : List String) (i : Nat) (r : RunRow) :
    List Violation :=
  (if r.permutation_item_id ∈ index then []
   else [Violation.unknown_permutation_id i r.permutation_item_id]) ++
  (if 1 ≤ r.run_id then [] else [Violation.invalid_run_id i]) ++
  (if r.test_array.all fun x => x == 0 || x == 1 then []
   else [Violation.invalid_test_value i]) ++
  (if 0 ≤ r.HITL_turns_int ∧ 0 ≤ r.tool_call_int ∧ 0 ≤ r.ReACT_agent_calls ∧
      0 ≤ r.forbidden_tool_calls then []
   else [Violation.negative_counter i]) ++
  (if 0 ≤ r.time_spent then [] else [Violation.negative_time i])

/-- Modelled from the spec: `validate_result_csv` collects the violations of
every row (exhaustively, not stopping at the first). -/
def validate_result_csv (index : List String) (rows : List RunRow) :
    List Violation :=
  rows.enum.flatMap fun p => row_violations index p.1 p.2

/-- Modelled from the spec: ingestion persists the rows only when validation
found no violation; otherwise the whole upload is rejected with the full
violation list and nothing is persisted. -/
def ingest_result (index : List String) (rows : List RunRow) :
    Except (List Violation) (List RunRow) :=
  if validate_result_csv index rows = [] then Except.ok rows
  else Except.error (validate_result_csv index rows)

/-- Modelled from the spec: the pass-rate computation of
`calculate_high_level_kpis` — flatten all test arrays, divide the sum by the
total length, with an explicit `none` when there are no test items. -/
def pass_rate (rows : List RunRow) : Option ℚ :=
  let all_test_items := rows.flatMap fun r => r.test_array
  if all_test_items.isEmpty then none
  else some ((all_test_items.sum : ℚ) / (all_test_items.length : ℚ))

/-- Modelled from the spec: the zero-error-runs computation of
`calculate_high_level_kpis` — group rows by permutation id, count the ids all
of whose runs have all-ones arrays, divide by the number of distinct ids,
with an explicit `none` when there are no rows. -/
def zero_error_runs (rows : List RunRow) : Option ℚ :=
  let ids := (rows.map fun r => r.permutation_item_id).dedup
  if ids.isEmpty then none
  else
    let zero_error_count :=
      (ids.filter fun i =>
        (rows.filter fun r => r.permutation_item_id == i).all fun r =>
          r.test_array.all fun x => x == 1).length
    some ((zero_error_count : ℚ) / (ids.length : ℚ))

/-- `forbidden_tool_call_rate = forbidden_calls_sum / tool_calls_sum`
(`backend/results_utils.py` line 692 as quoted at
`DISPLAY_RESULTS_FEATURE.md` line 566). -/
def forbidden_tool_call_rate (rows : List RunRow) : ℚ :=
  (((rows.map fun r => r.forbidden_tool_calls).sum : Int) : ℚ) /
    (((rows.map fun r => r.tool_call_int).sum : Int) : ℚ)

/-- Modelled from the spec: the comparison endpoint's absolute difference
`result1_value - result2_value`. -/
def difference_absolute (a b : ℚ) : ℚ := a - b

/-- Modelled from the spec: the comparison endpoint's percentage difference
`((result1_value - result2_value) / result2_value) * 100`, an explicit
`none` when the second value is zero. -/
def difference_percentage (a b : ℚ) : Option ℚ :=
  if b = 0 then none else some ((a - b) / b * 100)

theorem mem_validate_result_csv (index : List String) (rows : List RunRow)
    (v : Violation) :
    v ∈ validate_result_csv index rows ↔
      ∃ i r, rows[i]? = some r ∧ v ∈ row_violations index i r := by
  unfold validate_result_csv
  rw [List.mem_flatMap]
  constructor
  · rintro ⟨⟨i, r⟩, hmem, hv⟩
    exact ⟨i, r, List.mk_mem_enum_iff_getElem?.mp hmem, hv⟩
  · rintro ⟨i, r, hget, hv⟩
    exact ⟨(i, r), List.mk_mem_enum_iff_getElem?.mpr hget, hv⟩

theorem unknown_mem_row_violations (index : List String) (i : Nat) (r : RunRow)
    (h : r.permutation_item_id ∉ index) :
    Violation.unknown_permutation_id i r.permutation_item_id ∈
      row_violations index i r := by
  simp [row_violations, h]

theorem testvalue_mem_row_violations (index : List String) (i : Nat)
    (r : RunRow) (h : ∃ x ∈ r.test_array, x ≠ 0 ∧ x ≠ 1) :
    Violation.invalid_test_value i ∈ row_violations index i r := by
  obtain ⟨x, hx, hx0, hx1⟩ := h
  have hall : ¬(r.test_array.all fun x => x == 0 || x == 1) = true := by
    rw [List.all_eq_true]
    intro hc
    have := hc x hx
    simp [hx0, hx1] at this
  simp [row_violations, hall]

theorem counter_mem_row_violations (index : List String) (i : Nat) (r : RunRow)
    (h : r.HITL_turns_int < 0 ∨ r.tool_call_int < 0 ∨ r.ReACT_agent_calls < 0 ∨
      r.forbidden_tool_calls < 0) :
    Violation.negative_counter i ∈ row_violations index i r := by
  have hc : ¬(0 ≤ r.HITL_turns_int ∧ 0 ≤ r.tool_call_int ∧
      0 ≤ r.ReACT_agent_calls ∧ 0 ≤ r.forbidden_tool_calls) := by
    rcases h with h | h | h | h <;> intro ⟨h1, h2, h3, h4⟩ <;> omega
  simp [row_violations, hc]

/-- C4: ingestion validates every row, collecting all violations
exhaustively, and rejects the whole upload atomically (nothing persisted,
full violation list reported) whenever any row has an unknown permutation
id, a test value outside 0/1, or a negative counter. -/
theorem C4_ingestion_atomic_exhaustive :
    ∀ (index : List String) (rows : List RunRow),
      (∃ (i : Nat) (r : RunRow), rows[i]? = some r ∧
          (r.permutation_item_id ∉ index ∨
           (∃ x ∈ r.test_array, x ≠ 0 ∧ x ≠ 1) ∨
           r.HITL_turns_int < 0 ∨ r.tool_call_int < 0 ∨
           r.ReACT_agent_calls < 0 ∨ r.forbidden_tool_calls < 0)) →
      ingest_result index rows =
          Except.error (validate_result_csv index rows) ∧
      (∀ (i : Nat) (r : RunRow), rows[i]? = some r →
        r.permutation_item_id ∉ index →
        Violation.unknown_permutation_id i r.permutation_item_id ∈
          validate_result_csv index rows) ∧
      (∀ (i : Nat) (r : RunRow), rows[i]? = some r →
        (∃ x ∈ r.test_array, x ≠ 0 ∧ x ≠ 1) →
        Violation.invalid_test_value i ∈ validate_result_csv index rows) ∧
      (∀ (i : Nat) (r : RunRow), rows[i]? = some r →
        (r.HITL_turns_int < 0 ∨ r.tool_call_int < 0 ∨
          r.ReACT_agent_calls < 0 ∨ r.forbidden_tool_calls < 0) →
        Violation.negative_counter i ∈ validate_result_csv index rows) := by
  intro index rows hbad
  have hne : validate_result_csv index rows ≠ [] := by
    obtain ⟨i, r, hget, hkind⟩ := hbad
    have : ∃ v, v ∈ validate_result_csv index rows := by
      rcases hkind with h | h | h
      · exact ⟨_, (mem_validate_result_csv index rows _).mpr
          ⟨i, r, hget, unknown_mem_row_violations index i r h⟩⟩
      · exact ⟨_, (mem_validate_result_csv index rows _).mpr
          ⟨i, r, hget, testvalue_mem_row_violations index i r h⟩⟩
      · exact ⟨_, (mem_validate_result_csv index rows _).mpr
          ⟨i, r, hget, counter_mem_row_violations index i r h⟩⟩
    obtain ⟨v, hv⟩ := this
    exact List.ne_nil_of_mem hv
  refine ⟨by simp [ingest_result, hne], ?_, ?_, ?_⟩
  · intro i r hget h
    exact (mem_validate_result_csv index rows _).mpr
      ⟨i, r, hget, unknown_mem_row_violations index i r h⟩
  · intro i r hget h
    exact (mem_validate_result_csv index rows _).mpr
      ⟨i, r, hget, testvalue_mem_row_violations index i r h⟩
  · intro i r hget h
    exact (mem_validate_result_csv index rows _).mpr
      ⟨i, r, hget, counter_mem_row_violations index i r h⟩

/-- A concrete invalid row: unknown permutation id and a test value of 2. -/
def invalidRow : RunRow :=
  { permutation_item_id := "stale"
    run_id := 1
    test_array := [2]
    HITL_turns_int := 0
    tool_call_int := 0
    ReACT_agent_calls := 0
    forbidden_tool_calls := 0
    time_spent := 0 }

theorem C4_witness :
    ingest_result ["known"] [invalidRow] =
      Except.error (validate_result_csv ["known"] [invalidRow]) :=
  (C4_ingestion_atomic_exhaustive ["known"] [invalidRow]
    ⟨0, invalidRow, rfl, Or.inl (by decide)⟩).1

theorem sum_eq_count_one (l : List Int) (h : ∀ x ∈ l, x = 0 ∨ x = 1) :
    l.sum = (l.count 1 : Int) := by
  induction l with
  | nil => simp
  | cons x xs ih =>
    have hx := h x (List.mem_cons_self x xs)
    have hxs := ih fun y hy => h y (List.mem_cons_of_mem x hy)
    rcases hx with hx | hx <;>
      simp [List.count_cons, hx, hxs, Int.add_comm]

/-- C5: pass_rate is the number of ones in the flattened test arrays over
the total number of test items, and an explicit `none` (never a
divide-by-zero or an implicit zero) when there are no items. -/
theorem C5_pass_rate_formula :
    ∀ rows : List RunRow,
      (∀ x ∈ rows.flatMap (fun r => r.test_array), x = 0 ∨ x = 1) →
      ((rows.flatMap fun r => r.test_array) ≠ [] →
        pass_rate rows = some
          ((((rows.flatMap fun r => r.test_array).count 1 : ℕ) : ℚ) /
            (((rows.flatMap fun r => r.test_array).length : ℕ) : ℚ))) ∧
      ((rows.flatMap fun r => r.test_array) = [] → pass_rate rows = none) := by
  intro rows h01
  constructor
  · intro hne
    unfold pass_rate
    rw [if_neg (by simpa [List.isEmpty_iff] using hne)]
    congr 1
    rw [sum_eq_count_one _ h01]
    push_cast
    ring
  · intro hnil
    unfold pass_rate
    rw [if_pos (by simpa [List.isEmpty_iff] using hnil)]

/-- A concrete valid row with test array `[1, 0]`. -/
def halfPassRow : RunRow :=
  { permutation_item_id := "p"
    run_id := 1
    test_array := [1, 0]
    HITL_turns_int := 0
    tool_call_int := 0
    ReACT_agent_calls := 0
    forbidden_tool_calls := 0
    time_spent := 0 }

theorem C5_witness : pass_rate [halfPassRow] = some ((1 : ℚ) / 2) := by
  have := (C5_pass_rate_formula [halfPassRow] (by decide)).1 (by decide)
  rw [this]
  norm_num [halfPassRow]

/-- The distinct permutation ids appearing in a result set's rows: exactly
the ids with at least one run present. -/
def run_ids (rows : List RunRow) : Finset String :=
  (rows.map fun r => r.permutation_item_id).toFinset

/-- The permutation ids all of whose runs have all-ones test arrays. -/
def all_pass_ids (rows : List RunRow) : Finset String :=
  (run_ids rows).filter fun i =>
    ∀ r ∈ rows, r.permutation_item_id = i → ∀ x ∈ r.test_array, x = 1

theorem zero_error_runs_eq (rows : List RunRow) (h : rows ≠ []) :
    zero_error_runs rows =
      some (((all_pass_ids rows).card : ℚ) / ((run_ids rows).card : ℚ)) := by
  unfold zero_error_runs
  have hids : ((rows.map fun r => r.permutation_item_id).dedup).isEmpty = false := by
    rw [List.isEmpty_eq_false_iff_exists_mem]
    obtain ⟨r, hr⟩ := List.exists_mem_of_ne_nil rows h
    exact ⟨r.permutation_item_id, by
      rw [List.mem_dedup]
      exact List.mem_map_of_mem _ hr⟩
  rw [if_neg (by simp [hids])]
  have hden : (run_ids rows).card =
      ((rows.map fun r => r.permutation_item_id).dedup).length :=
    List.card_toFinset _
  have hnum : (all_pass_ids rows).card =
      (((rows.map fun r => r.permutation_item_id).dedup).filter fun i =>
        (rows.filter fun r => r.permutation_item_id == i).all fun r =>
          r.test_array.all fun x => x == 1).length := by
    unfold all_pass_ids run_ids
    have hfilter :
        (((rows.map fun r => r.permutation_item_id).dedup).filter fun i =>
          (rows.filter fun r => r.permutation_item_id == i).all fun r =>
            r.test_array.all fun x => x == 1).toFinset =
        (rows.map fun r => r.permutation_item_id).toFinset.filter fun i =>
          ∀ r ∈ rows, r.permutation_item_id = i → ∀ x ∈ r.test_array, x = 1 := by
      rw [List.toFinset_filter]
      rw [show ((rows.map fun r => r.permutation_item_id).dedup).toFinset
          = (rows.map fun r => r.permutation_item_id).toFinset from by
        ext a; simp]
      apply Finset.filter_congr
      intro i _
      simp only [List.all_eq_true, List.mem_filter, beq_iff_eq, and_imp]
    rw [← hfilter, List.card_toFinset, List.Nodup.dedup]
    exact (List.nodup_dedup _).filter _
  rw [hden, hnum]

/-- Two runs of one permutation, arrays `[1,1,0]` and `[1,1,1]`. -/
def exampleRuns : List RunRow :=
  [{ permutation_item_id := "p", run_id := 1, test_array := [1, 1, 0],
     HITL_turns_int := 0, tool_call_int := 0, ReACT_agent_calls := 0,
     forbidden_tool_calls := 0, time_spent := 0 },
   { permutation_item_id := "p", run_id := 2, test_array := [1, 1, 1],
     HITL_turns_int := 0, tool_call_int := 0, ReACT_agent_calls := 0,
     forbidden_tool_calls := 0, time_spent := 0 }]

/-- C6: zero_error_runs is the number of distinct permutation ids all of
whose runs are all-ones over the number of distinct permutation ids with at
least one run (ids without runs are excluded from the denominator); for one
permutation with runs `[1,1,0]` and `[1,1,1]` the numerator contribution is
0 while pass_rate over those rows is 5/6. -/
theorem C6_zero_error_runs_formula :
    (∀ rows : List RunRow, rows ≠ [] →
      zero_error_runs rows =
        some (((all_pass_ids rows).card : ℚ) / ((run_ids rows).card : ℚ))) ∧
    (∀ (rows : List RunRow) (i : String),
      i ∈ run_ids rows ↔ ∃ r ∈ rows, r.permutation_item_id = i) ∧
    zero_error_runs exampleRuns = some 0 ∧
    pass_rate exampleRuns = some ((5 : ℚ) / 6) := by
  refine ⟨zero_error_runs_eq, ?_, ?_, ?_⟩
  · intro rows i
    unfold run_ids
    simp [eq_comm]
  · rw [zero_error_runs_eq exampleRuns (by decide)]
    rw [show (all_pass_ids exampleRuns).card = 0 from by decide]
    norm_num
  · unfold pass_rate
    norm_num [exampleRuns]

theorem C6_witness :
    zero_error_runs exampleRuns =
      some (((all_pass_ids exampleRuns).card : ℚ) /
        ((run_ids exampleRuns).card : ℚ)) :=
  C6_zero_error_runs_formula.1 exampleRuns (by decide)

/-- C7: the comparison function returns absolute = A − B and percentage =
(A − B)/B × 100 per metric, with percentage an explicit `none` when B is
zero; for A = 0.80 and B = 0.60 this gives 0.20 and 100/3 ≈ 33.3%. -/
theorem C7_comparison_differences :
    (∀ a b : ℚ, difference_absolute a b = a - b) ∧
    (∀ a b : ℚ, b ≠ 0 → difference_percentage a b = some ((a - b) / b * 100)) ∧
    (∀ a : ℚ, difference_percentage a 0 = none) ∧
    difference_absolute (8 / 10) (6 / 10) = 2 / 10 ∧
    difference_percentage (8 / 10) (6 / 10) = some (100 / 3) := by
  refine ⟨fun a b => rfl, fun a b hb => if_neg hb, fun a => if_pos rfl, ?_, ?_⟩
  · norm_num [difference_absolute]
  · rw [difference_percentage, if_neg (by norm_num)]
    norm_num

theorem C7_witness : difference_percentage 1 2 = some (-50) := by
  rw [C7_comparison_differences.2.1 1 2 (by norm_num)]
  norm_num

/-- A row whose forbidden-call counter exceeds its tool-call counter; it
passes every validation rule. -/
def overForbiddenRow : RunRow :=
  { permutation_item_id := "p"
    run_id := 1
    test_array := [1]
    HITL_turns_int := 0
    tool_call_int := 2
    ReACT_agent_calls := 0
    forbidden_tool_calls := 5
    time_spent := 0 }

/-- C8 counterexample: a validation-clean result set whose
forbidden_tool_call_rate is 5/2, outside [0,1]. -/
theorem C8_counterexample :
    validate_result_csv ["p"] [overForbiddenRow] = [] ∧
    forbidden_tool_call_rate [overForbiddenRow] = 5 / 2 ∧
    ¬ forbidden_tool_call_rate [overForbiddenRow] ≤ 1 := by
  refine ⟨by decide, ?_, ?_⟩
  · unfold forbidden_tool_call_rate
    norm_num [overForbiddenRow]
  · unfold forbidden_tool_call_rate
    norm_num [overForbiddenRow]

/-- C8 amended: forbidden_tool_call_rate is the ratio of summed forbidden
calls to summed tool calls (not a raw count), and it lies in [0, 1] whenever
every row's forbidden-call counter is between 0 and its tool-call counter
and at least one tool call occurred. -/
theorem C8_rate_formula_amended :
    (∀ rows : List RunRow, forbidden_tool_call_rate rows =
      (((rows.map fun r => r.forbidden_tool_calls).sum : Int) : ℚ) /
        (((rows.map fun r => r.tool_call_int).sum : Int) : ℚ)) ∧
    (∀ rows : List RunRow,
      (∀ r ∈ rows, 0 ≤ r.forbidden_tool_calls ∧
        r.forbidden_tool_calls ≤ r.tool_call_int) →
      0 < (rows.map fun r => r.tool_call_int).sum →
      0 ≤ forbidden_tool_call_rate rows ∧
        forbidden_tool_call_rate rows ≤ 1) := by
  refine ⟨fun rows => rfl, ?_⟩
  intro rows hbound hpos
  have hF : (0 : Int) ≤ (rows.map fun r => r.forbidden_tool_calls).sum := by
    apply List.sum_nonneg
    intro x hx
    obtain ⟨r, hr, hrx⟩ := List.mem_map.mp hx
    exact hrx ▸ (hbound r hr).1
  have hFT : (rows.map fun r => r.forbidden_tool_calls).sum ≤
      (rows.map fun r => r.tool_call_int).sum := by
    apply List.sum_le_sum
    intro r hr
    exact (hbound r hr).2
  unfold forbidden_tool_call_rate
  constructor
  · apply div_nonneg
    · exact_mod_cast hF
    · exact_mod_cast le_of_lt hpos
  · rw [div_le_one (by exact_mod_cast hpos)]
    exact_mod_cast hFT

/-- A row with 2 tool calls of which 1 was forbidden. -/
def oneOfTwoForbiddenRow : RunRow :=
  { permutation_item_id := "p"
    run_id := 1
    test_array := [1]
    HITL_turns_int := 0
    tool_call_int := 2
    ReACT_agent_calls := 0
    forbidden_tool_calls := 1
    time_spent := 0 }

theorem C8_amended_witness :
    0 ≤ forbidden_tool_call_rate [oneOfTwoForbiddenRow] ∧
      forbidden_tool_call_rate [oneOfTwoForbiddenRow] ≤ 1 :=
  C8_rate_formula_amended.2 [oneOfTwoForbiddenRow]
    (by intro r hr; rw [List.mem_singleton.mp hr]; constructor <;> decide)
    (by decide)

/-! ## Scope-rule configuration

Embeds `handleAdd` of `frontend/src/components/AddRuleModal.jsx` (lines
67-82) and `handleAddRule` of the rules-based `PermutationPicker`
(duplicate check via an order-independent sorted key). The backend
`validate_variant_scopes` of `backend/app.py` is not among the source
files and is modelled from the spec. -/

/-- `handleAdd` of `AddRuleModal.jsx`: reject an empty selection and
selecting the same variant twice; otherwise the pair is handed to `onAdd`. -/
def handleAdd (variant1 variant2 : String) : Except String (String × String) :=
  if variant1 = "" ∨ variant2 = "" then
    Except.error "Please select both variants"
  else if variant1 = variant2 then
    Except.error "Cannot select the same variant twice"
  else
    Except.ok (variant1, variant2)

/-- Lexicographic comparison on character lists, the order JavaScript's
default array sort applies to the two variant identifiers. -/
def strLtList : List Char → List Char → Bool
  | [], [] => false
  | [], _ :: _ => true
  | _ :: _, [] => false
  | c :: cs, d :: ds => if c < d then true else if d < c then false else strLtList cs ds

/-- The order-independent duplicate key `[variant1, variant2].sort().join(
then a bar)` used by `handleAddRule`. -/
def ruleKey (v1 v2 : String) : String :=
  if strLtList v2.data v1.data then v2 ++ "|" ++ v1 else v1 ++ "|" ++ v2

/-- `handleAddRule` of `PermutationPicker`: a rule equal to an existing one
under unordered-pair equality is silently not added. -/
def handleAddRule (prev : List ScopeRule) (v1 v2 : String) : List ScopeRule :=
  if prev.any fun rule => ruleKey rule.variant1 rule.variant2 == ruleKey v1 v2
  then prev
  else prev ++ [⟨v1, v2⟩]

/-- The component part of a variant identifier `Comp:idx`. -/
def componentOf (id : String) : String :=
  String.mk (id.data.takeWhile fun c => c ≠ ':')

/-- A scope rule in parsed form: two `(component, variant index)` references. -/
structure RuleRef where
  comp1 : String
  idx1 : Nat
  comp2 : String
  idx2 : Nat
deriving DecidableEq, Repr

/-- A reference is invalid when its component is outside the template's
component set or its variant index is out of range. -/
def ref_invalid (componentCounts : List (String × Nat)) (comp : String)
    (idx : Nat) : Prop :=
  componentCounts.lookup comp = none ∨
    ∃ n, componentCounts.lookup comp = some n ∧ n ≤ idx

/-- Modelled from the spec: backend `validate_variant_scopes`
(`backend/app.py`, absent from the sources) accepts a rule set only when
every rule references components used in the template with in-range variant
indices. -/
def validate_variant_scopes (componentCounts : List (String × Nat))
    (rules : List RuleRef) : Bool :=
  rules.all fun r =>
    match componentCounts.lookup r.comp1, componentCounts.lookup r.comp2 with
    | some n1, some n2 => decide (r.idx1 < n1) && decide (r.idx2 < n2)
    | _, _ => false

/-- C9 counterexample: the rule `(a:0, a:1)` references component `a` on
both sides, yet the modal accepts it, the picker adds it, and the
(spec-modelled) backend validation passes it — the configuration is not
rejected. -/
theorem C9_counterexample :
    componentOf "a:0" = componentOf "a:1" ∧
    handleAdd "a:0" "a:1" = Except.ok ("a:0", "a:1") ∧
    handleAddRule [] "a:0" "a:1" = [⟨"a:0", "a:1"⟩] ∧
    validate_variant_scopes [("a", 3), ("b", 2)] [⟨"a", 0, "a", 1⟩] = true := by
  refine ⟨by decide, rfl, rfl, by decide⟩

/-- C9 amended: configuration is rejected for an empty selection, for the
same variant on both sides, and (backend) for a reference to a component
outside the template or an out-of-range variant index; adding a duplicate
rule (unordered-pair equality) leaves the rule set unchanged. A rule
referencing the same component with two different variant indices is not
rejected. -/
theorem C9_rule_validation_amended :
    (∀ v : String, v ≠ "" →
      handleAdd v v = Except.error "Cannot select the same variant twice") ∧
    (∀ v2 : String, handleAdd "" v2 = Except.error "Please select both variants") ∧
    (∀ (prev : List ScopeRule) (v1 v2 : String),
      (∃ rule ∈ prev, ruleKey rule.variant1 rule.variant2 = ruleKey v1 v2) →
      handleAddRule prev v1 v2 = prev) ∧
    (∀ (componentCounts : List (String × Nat)) (rules : List RuleRef)
        (r : RuleRef), r ∈ rules →
      (ref_invalid componentCounts r.comp1 r.idx1 ∨
        ref_invalid componentCounts r.comp2 r.idx2) →
      validate_variant_scopes componentCounts rules = false) := by
  refine ⟨?_, ?_, ?_, ?_⟩
  · intro v hv
    rw [handleAdd, if_neg (by simp [hv]), if_pos rfl]
  · intro v2
    rw [handleAdd, if_pos (Or.inl rfl)]
  · intro prev v1 v2 ⟨rule, hmem, hkey⟩
    rw [handleAddRule, if_pos]
    rw [List.any_eq_true]
    exact ⟨rule, hmem, by simp [hkey]⟩
  · intro componentCounts rules r hmem hbad
    rw [validate_variant_scopes]
    rw [Bool.eq_false_iff]
    intro hall
    have hr := List.all_eq_true.mp hall r hmem
    rcases h1 : componentCounts.lookup r.comp1 with _ | n1 <;>
      rcases h2 : componentCounts.lookup r.comp2 with _ | n2 <;>
        rw [h1, h2] at hr <;> simp at hr
    rcases hbad with hbad | hbad <;>
      rcases hbad with hnone | ⟨n, hn, hle⟩ <;>
        first
          | (rw [h1] at hnone; exact Option.noConfusion hnone)
          | (rw [h2] at hnone; exact Option.noConfusion hnone)
          | (rw [h1] at hn; cases hn; omega)
          | (rw [h2] at hn; cases hn; omega)

theorem C9_amended_witness :
    handleAddRule [⟨"x", "y"⟩] "y" "x" = [⟨"x", "y"⟩] :=
  C9_rule_validation_amended.2.2.1 [⟨"x", "y"⟩] "y" "x"
    ⟨⟨"x", "y"⟩, List.mem_singleton_self _, by decide⟩

/-! ## Template renderer (`generateRandomPreview`, `templateUtils.js`)

The frontend renderer extracts `\x7b\x7bname\x7d\x7d` /
`\x7b\x7bname/part\x7d\x7d` placeholders with the regex
`[^}/]+` for names and `[^}]+` for parts, groups usages per component,
picks one variant per component, and replaces every occurrence of each
resolved placeholder globally (regex with the `g` flag, braces escaped).
Randomness is modelled by an explicit index choice `pick`; the
brace-escaped global regex replace is modelled as literal global
replacement.  That model coincides with the code exactly when the
placeholder names and parts contain no regex metacharacters (the code
escapes only braces when it builds the `RegExp`) and the replacement
values contain no dollar character (JavaScript `replace` expands
`$`-patterns in the replacement string); the quantified theorem below
restricts its domain to exactly that, via `goodNameJs`, `goodPartJs` and
`VariantValOkJs`. -/

/-- The opening brace character. -/
def lbrace : Char := Char.ofNat 123

/-- The closing brace character. -/
def rbrace : Char := Char.ofNat 125

/-- A variant value: an atomic string or a split named-part map. -/
inductive VariantVal where
  | atomic (s : String)
  | split (kv : List (String × String))
deriving DecidableEq, Repr

/-- A component as the renderer consumes it. -/
structure Component where
  isSplit : Bool
  variants : List VariantVal
deriving DecidableEq, Repr

/-- `String(variant)` for the non-split replacement: a string stays itself,
an object stringifies to `[object Object]`. -/
def stringOfVariant : VariantVal → String
  | VariantVal.atomic s => s
  | VariantVal.split _ => "[object Object]"

/-- Whitespace as JavaScript's `String.prototype.trim` removes it: the
ECMAScript WhiteSpace set (TAB, VT, FF, SP, NBSP, ZWNBSP and the Unicode
space separators) together with the LineTerminator set (LF, CR, LS, PS). -/
def isJsSpace (c : Char) : Bool :=
  c = ' ' || c = '\t' || c = '\n' || c = '\r' ||
  c = Char.ofNat 11 || c = Char.ofNat 12 || c = Char.ofNat 160 ||
  c = Char.ofNat 5760 ||
  (8192 ≤ c.toNat ∧ c.toNat ≤ 8202) ||
  c = Char.ofNat 8232 || c = Char.ofNat 8233 || c = Char.ofNat 8239 ||
  c = Char.ofNat 8287 || c = Char.ofNat 12288 || c = Char.ofNat 65279

/-- The characters that carry meaning in a JavaScript regular-expression
pattern and that `generateRandomPreview`'s brace-only escaping leaves
unescaped. -/
def regexSpecialChars : List Char :=
  [Char.ofNat 92, '^', '$', '.', '|', '?', '*', '+', '(', ')', '[', ']']

/-- A character the constructed `RegExp` would not treat literally. -/
def isRegexSpecial (c : Char) : Bool := regexSpecialChars.contains c

/-- `String.prototype.trim` on a character list. -/
def trimL (l : List Char) : List Char :=
  ((l.dropWhile isJsSpace).reverse.dropWhile isJsSpace).reverse

/-- One attempted regex match of `\x7b\x7b([^}/]+)(?:/([^}]+))?\x7d\x7d`
at the head of the input; returns the trimmed name, the optional trimmed
part, and the input remaining after the match. -/
def tryMatchAt (s : List Char) : Option ((String × Option String) × List Char) :=
  match s with
  | c1 :: c2 :: rest =>
    if c1 = lbrace ∧ c2 = lbrace then
      let name := rest.takeWhile fun c => c ≠ rbrace ∧ c ≠ '/'
      let r1 := rest.drop name.length
      if name.isEmpty then none
      else
        match r1 with
        | d1 :: d2 :: r2 =>
          if d1 = rbrace ∧ d2 = rbrace then
            some ((String.mk (trimL name), none), r2)
          else if d1 = '/' then
            let part := (d2 :: r2).takeWhile fun c => c ≠ rbrace
            let r3 := (d2 :: r2).drop part.length
            if part.isEmpty then none
            else
              match r3 with
              | e1 :: e2 :: r4 =>
                if e1 = rbrace ∧ e2 = rbrace then
                  some ((String.mk (trimL name), some (String.mk (trimL part))), r4)
                else none
              | _ => none
          else none
        | _ => none
    else none
  | _ => none

/-- The regex scan of `extractComponentsFromTemplate`: leftmost,
non-overlapping matches, advancing one character when no match starts at
the current position. Structural on an explicit fuel so the function
computes by reduction; the initial fuel is the input length, which always
suffices. -/
def extractLoop : Nat → List Char → List (String × Option String)
  | 0, _ => []
  | _, [] => []
  | fuel + 1, c :: cs =>
    match tryMatchAt (c :: cs) with
    | some (u, rest) => u :: extractLoop fuel rest
    | none => extractLoop fuel cs

/-- `extractComponentsFromTemplate(templateText)`. -/
def extractComponentsFromTemplate (templateText : String) :
    List (String × Option String) :=
  extractLoop templateText.data.length templateText.data

/-- One-pass, left-to-right, non-overlapping global replacement of a
literal pattern, the semantics of `String.replace` with a `g`-flagged
escaped-literal regex.  Fuel-structural; the initial fuel is the input
length. -/
def repListF (pat val : List Char) : Nat → List Char → List Char
  | _, [] => []
  | 0, s => s
  | fuel + 1, c :: cs =>
    if pat ≠ [] ∧ pat.isPrefixOf (c :: cs) then
      val ++ repListF pat val fuel ((c :: cs).drop pat.length)
    else
      c :: repListF pat val fuel cs

/-- Global literal replacement on character lists. -/
def repL (pat val s : List Char) : List Char :=
  repListF pat val s.length s

/-- Global literal replacement on strings.  This models the code's
`result.replace(new RegExp(escapedPlaceholder, 'g'), value)`, whose
escaping covers only braces and whose replacement string undergoes
`$`-pattern expansion; it therefore agrees with the code exactly when the
placeholder contains no unescaped regex metacharacter and the value no
dollar character — the domain the quantified theorem below imposes. -/
def repString (s pat val : String) : String :=
  String.mk (repL pat.data val.data s.data)

/-- The literal `\x7b\x7bname\x7d\x7d` placeholder, as characters. -/
def placeholderAtomicL (name : List Char) : List Char :=
  lbrace :: lbrace :: name ++ [rbrace, rbrace]

/-- The literal `\x7b\x7bname/part\x7d\x7d` placeholder, as characters. -/
def placeholderSplitL (name part : List Char) : List Char :=
  lbrace :: lbrace :: name ++ '/' :: part ++ [rbrace, rbrace]

/-- The grouping loop of `generateRandomPreview`: walk the usages in
order; skip components absent from the map; create a component's group at
its first usage; push the usage's part (when present and non-empty, i.e.
truthy) onto that group. -/
def buildGroups (cmap : List (String × Component)) :
    List (String × Option String) → List (String × List String) →
      List (String × List String)
  | [], groups => groups
  | u :: us, groups =>
    if (cmap.lookup u.1).isNone then
      buildGroups cmap us groups
    else
      let withEntry :=
        if groups.any fun g => g.1 == u.1 then groups
        else groups ++ [(u.1, [])]
      let pushed :=
        match u.2 with
        | some p =>
          if p = "" then withEntry
          else withEntry.map fun g => if g.1 == u.1 then (g.1, g.2 ++ [p]) else g
        | none => withEntry
      buildGroups cmap us pushed

/-- The selection loop of `generateRandomPreview`: for each grouped
component in order, skip it when it has no variants, else pick one variant
(randomness modelled by `pick`, reduced into range). -/
def selectVariants (cmap : List (String × Component))
    (groups : List (String × List String)) (pick : String → Nat) :
    List (String × VariantVal) :=
  groups.filterMap fun g =>
    match cmap.lookup g.1 with
    | some comp =>
      if comp.variants.isEmpty then none
      else some (g.1, comp.variants.getD (pick g.1 % comp.variants.length)
        (VariantVal.atomic ""))
    | none => none

/-- The replacement loop of `generateRandomPreview`: for each selected
component, a split component with collected parts replaces every
`\x7b\x7bname/part\x7d\x7d` whose part key exists in the (object) variant;
any other component replaces every `\x7b\x7bname\x7d\x7d` with the variant
string. -/
def substitute (cmap : List (String × Component))
    (groups : List (String × List String))
    (selected : List (String × VariantVal)) (text : String) : String :=
  selected.foldl
    (fun result nv =>
      let comp := (cmap.lookup nv.1).getD ⟨false, []⟩
      let parts := (groups.lookup nv.1).getD []
      if comp.isSplit ∧ parts ≠ [] then
        match nv.2 with
        | VariantVal.split kv =>
          parts.foldl
            (fun res part =>
              match kv.lookup part with
              | some v => repString res
                  (String.mk (placeholderSplitL nv.1.data part.data)) v
              | none => res)
            result
        | VariantVal.atomic _ => result
      else
        repString result (String.mk (placeholderAtomicL nv.1.data))
          (stringOfVariant nv.2))
    text

/-- `generateRandomPreview(templateText, componentsMap)`, with the random
variant choice exposed as the `pick` argument. -/
def generateRandomPreview (templateText : String)
    (cmap : List (String × Component)) (pick : String → Nat) : String :=
  let usages := extractComponentsFromTemplate templateText
  if usages.isEmpty then templateText
  else
    let groups := buildGroups cmap usages []
    let selected := selectVariants cmap groups pick
    substitute cmap groups selected templateText

/-- Characters that are neither brace. -/
def braceFree (l : List Char) : Prop := ∀ c ∈ l, c ≠ lbrace ∧ c ≠ rbrace

instance (l : List Char) : Decidable (braceFree l) := by
  unfold braceFree; infer_instance

/-- A well-formed component name for a placeholder: non-empty, no braces,
no slash, no whitespace (so that the extractor's trim is the identity). -/
def goodName (n : String) : Prop :=
  n.data ≠ [] ∧ ∀ c ∈ n.data, c ≠ lbrace ∧ c ≠ rbrace ∧ c ≠ '/' ∧ isJsSpace c = false

instance (n : String) : Decidable (goodName n) := by
  unfold goodName; infer_instance

/-- A well-formed part name: non-empty, no braces, no whitespace. -/
def goodPart (p : String) : Prop :=
  p.data ≠ [] ∧ ∀ c ∈ p.data, c ≠ lbrace ∧ c ≠ rbrace ∧ isJsSpace c = false

instance (p : String) : Decidable (goodPart p) := by
  unfold goodPart; infer_instance

/-- A structured view of a template text: literal text runs interleaved
with placeholders. -/
inductive Chunk where
  | text (s : List Char)
  | ph (name : String) (part : Option String)
deriving DecidableEq, Repr

/-- The characters a chunk denotes. -/
def chunkChars : Chunk → List Char
  | Chunk.text s => s
  | Chunk.ph n none => placeholderAtomicL n.data
  | Chunk.ph n (some p) => placeholderSplitL n.data p.data

/-- The template text denoted by a chunk list. -/
def flattenChunks (chunks : List Chunk) : List Char :=
  chunks.flatMap chunkChars

/-- The usage a chunk contributes to extraction. -/
def chunkUsage : Chunk → Option (String × Option String)
  | Chunk.text _ => none
  | Chunk.ph n p => some (n, p)

/-- Chunk wellformedness: literal runs are brace-free, placeholder names
and parts are well formed. -/
def ChunkOk : Chunk → Prop
  | Chunk.text s => braceFree s
  | Chunk.ph n p => goodName n ∧ ∀ q, p = some q → goodPart q

instance (ch : Chunk) : Decidable (ChunkOk ch) := by
  cases ch <;> (unfold ChunkOk; infer_instance)

/-- A variant value whose replacement strings are brace-free. -/
def VariantValOk : VariantVal → Prop
  | VariantVal.atomic s => braceFree s.data
  | VariantVal.split kv => ∀ e ∈ kv, braceFree e.2.data

instance (v : VariantVal) : Decidable (VariantValOk v) := by
  cases v <;> (unfold VariantValOk; infer_instance)

/-- A component all of whose variant values are brace-free. -/
def ComponentOk (comp : Component) : Prop :=
  ∀ v ∈ comp.variants, VariantValOk v

instance (comp : Component) : Decidable (ComponentOk comp) := by
  unfold ComponentOk; infer_instance

/-- A placeholder name on which the code's brace-only-escaped `RegExp`
behaves as a literal matcher: well formed and free of regex
metacharacters. -/
def goodNameJs (n : String) : Prop :=
  goodName n ∧ ∀ c ∈ n.data, isRegexSpecial c = false

instance (n : String) : Decidable (goodNameJs n) := by
  unfold goodNameJs; infer_instance

/-- A part name on which the constructed `RegExp` is literal. -/
def goodPartJs (p : String) : Prop :=
  goodPart p ∧ ∀ c ∈ p.data, isRegexSpecial c = false

instance (p : String) : Decidable (goodPartJs p) := by
  unfold goodPartJs; infer_instance

/-- Chunk wellformedness on the domain where the replacement model is
exact. -/
def ChunkOkJs : Chunk → Prop
  | Chunk.text s => braceFree s
  | Chunk.ph n p => goodNameJs n ∧ ∀ q, p = some q → goodPartJs q

instance (ch : Chunk) : Decidable (ChunkOkJs ch) := by
  cases ch <;> (unfold ChunkOkJs; infer_instance)

theorem chunkOk_of_js (ch : Chunk) (h : ChunkOkJs ch) : ChunkOk ch := by
  cases ch with
  | text s => exact h
  | ph n p => exact ⟨h.1.1, fun q hq => (h.2 q hq).1⟩

/-- A variant value whose replacements JavaScript `replace` inserts
verbatim: brace-free and free of the dollar character that triggers
`$`-pattern expansion in a replacement string. -/
def VariantValOkJs : VariantVal → Prop
  | VariantVal.atomic s => braceFree s.data ∧ ∀ c ∈ s.data, c ≠ '$'
  | VariantVal.split kv =>
    ∀ e ∈ kv, braceFree e.2.data ∧ ∀ c ∈ e.2.data, c ≠ '$'

instance (v : VariantVal) : Decidable (VariantValOkJs v) := by
  cases v <;> (unfold VariantValOkJs; infer_instance)

/-- A component all of whose variant values are inserted verbatim. -/
def ComponentOkJs (comp : Component) : Prop :=
  ∀ v ∈ comp.variants, VariantValOkJs v

instance (comp : Component) : Decidable (ComponentOkJs comp) := by
  unfold ComponentOkJs; infer_instance

theorem componentOk_of_js (comp : Component) (h : ComponentOkJs comp) :
    ComponentOk comp := by
  intro v hv
  cases v with
  | atomic s => exact (h _ hv).1
  | split kv => exact fun e he => (h _ hv e he).1

/-- A split component whose single variant defines only part `b`. -/
def missingPartMap : List (String × Component) :=
  [("c", ⟨true, [VariantVal.split [("b", "v")]]⟩)]

/-- C10 counterexample: rendering a template that references part `a` of a
split variant that only defines part `b` raises no parse error — the
renderer returns the text unchanged, the placeholder left in place.  With
the part present, the same template renders normally. -/
theorem C10_counterexample :
    generateRandomPreview "x \x7b\x7bc/a\x7d\x7d y" missingPartMap
        (fun _ => 0) = "x \x7b\x7bc/a\x7d\x7d y" ∧
    generateRandomPreview "x \x7b\x7bc/a\x7d\x7d y"
        [("c", ⟨true, [VariantVal.split [("a", "v")]]⟩)]
        (fun _ => 0) = "x v y" := by
  exact ⟨by decide, by decide⟩

theorem dropWhile_eq_self_of_all {p : Char → Bool} (l : List Char)
    (h : ∀ c ∈ l, p c = false) : l.dropWhile p = l := by
  cases l with
  | nil => rfl
  | cons c cs => simp [List.dropWhile_cons, h c (List.mem_cons_self c cs)]

theorem trimL_eq_self (l : List Char) (h : ∀ c ∈ l, isJsSpace c = false) :
    trimL l = l := by
  unfold trimL
  rw [dropWhile_eq_self_of_all l h,
    dropWhile_eq_self_of_all l.reverse fun c hc => h c (List.mem_reverse.mp hc),
    List.reverse_reverse]

theorem takeWhile_append_all {p : Char → Bool} (a b : List Char)
    (h : ∀ c ∈ a, p c = true) : (a ++ b).takeWhile p = a ++ b.takeWhile p := by
  induction a with
  | nil => simp
  | cons c cs ih =>
    simp only [List.cons_append, List.takeWhile_cons,
      h c (List.mem_cons_self c cs), if_pos]
    rw [ih fun d hd => h d (List.mem_cons_of_mem c hd)]

theorem tryMatchAt_none_of_not_lbrace (c : Char) (cs : List Char)
    (h : c ≠ lbrace) : tryMatchAt (c :: cs) = none := by
  cases cs with
  | nil => rfl
  | cons c2 rest => simp [tryMatchAt, h]

theorem tryMatchAt_ph (n : String) (p : Option String) (rest : List Char)
    (hn : goodName n) (hp : ∀ q, p = some q → goodPart q) :
    tryMatchAt (chunkChars (Chunk.ph n p) ++ rest) = some ((n, p), rest) := by
  obtain ⟨hne, hchars⟩ := hn
  have htrim : trimL n.data = n.data :=
    trimL_eq_self _ fun c hc => (hchars c hc).2.2.2
  have hempty : n.data.isEmpty = false := by
    simpa [List.isEmpty_iff] using hne
  cases p with
  | none =>
    have hname : ((n.data ++ rbrace :: rbrace :: rest).takeWhile
        fun c => c ≠ rbrace ∧ c ≠ '/') = n.data := by
      rw [takeWhile_append_all _ _ fun c hc => by
        simp [(hchars c hc).2.1, (hchars c hc).2.2.1]]
      simp [List.takeWhile_cons]
    have hneta : ({ data := n.data } : String) = n := rfl
    show tryMatchAt (placeholderAtomicL n.data ++ rest) = _
    simp only [placeholderAtomicL, List.cons_append, List.append_assoc,
      List.singleton_append, List.cons_append, List.nil_append]
    simp only [tryMatchAt]
    rw [if_pos ⟨trivial, trivial⟩, hname, hempty]
    simp only [Bool.false_eq_true, if_false]
    rw [List.drop_left]
    dsimp only
    rw [if_pos ⟨rfl, rfl⟩, htrim, hneta]
  | some q =>
    obtain ⟨hqne, hqchars⟩ := hp q rfl
    have hqtrim : trimL q.data = q.data :=
      trimL_eq_self _ fun c hc => (hqchars c hc).2.2
    obtain ⟨qc, qt, hq⟩ := List.exists_cons_of_ne_nil hqne
    have hname : ((n.data ++ '/' :: (qc :: (qt ++ rbrace :: rbrace :: rest))).takeWhile
        fun c => c ≠ rbrace ∧ c ≠ '/') = n.data := by
      rw [takeWhile_append_all _ _ fun c hc => by
        simp [(hchars c hc).2.1, (hchars c hc).2.2.1]]
      simp [List.takeWhile_cons]
    have hpart : ((qc :: (qt ++ rbrace :: rbrace :: rest)).takeWhile
        fun c => c ≠ rbrace) = qc :: qt := by
      rw [show qc :: (qt ++ rbrace :: rbrace :: rest)
          = (qc :: qt) ++ rbrace :: rbrace :: rest from by simp]
      rw [takeWhile_append_all _ _ fun c hc => by
        simp [(hqchars c (hq ▸ hc)).2.1]]
      simp [List.takeWhile_cons]
    have hqtrim2 : trimL (qc :: qt) = qc :: qt := hq ▸ hqtrim
    have hneta : ({ data := n.data } : String) = n := rfl
    have hqeta : ({ data := qc :: qt } : String) = q := by rw [← hq]
    have hdrop2 : List.drop (qc :: qt).length
        (qc :: (qt ++ rbrace :: rbrace :: rest)) = rbrace :: rbrace :: rest := by
      simp [List.length_cons, List.drop_succ_cons, List.drop_left]
    show tryMatchAt (placeholderSplitL n.data q.data ++ rest) = _
    rw [hq]
    simp only [placeholderSplitL, List.cons_append, List.append_assoc,
      List.singleton_append, List.nil_append]
    simp only [tryMatchAt]
    rw [if_pos ⟨trivial, trivial⟩, hname, hempty]
    simp only [Bool.false_eq_true, if_false]
    rw [List.drop_left]
    dsimp only
    rw [if_neg fun hc => absurd hc.1 (by decide), if_pos rfl, hpart]
    simp only [List.isEmpty_cons, Bool.false_eq_true, if_false]
    rw [hdrop2]
    dsimp only
    rw [if_pos ⟨rfl, rfl⟩, htrim, hqtrim2, hneta, hqeta]

theorem tryMatchAt_rest_lt {s : List Char} {u : String × Option String}
    {rest : List Char} (h : tryMatchAt s = some (u, rest)) :
    rest.length < s.length := by
  match s with
  | [] => simp [tryMatchAt] at h
  | [c] => simp [tryMatchAt] at h
  | c1 :: c2 :: t =>
    simp only [tryMatchAt] at h
    split at h
    · split at h
      · exact absurd h (by simp)
      · split at h
        · next d1 d2 r2 heq =>
          have hlen : r2.length + 2 ≤ t.length := by
            have := congrArg List.length heq
            simp [List.length_drop] at this
            omega
          split at h
          · have hr : rest = r2 := ((Prod.ext_iff.mp (Option.some.inj h)).2).symm
            subst hr
            simp only [List.length_cons]
            omega
          · split at h
            · split at h
              · exact absurd h (by simp)
              · split at h
                · next e1 e2 r4 heq2 =>
                  have hlen2 : r4.length + 2 ≤ r2.length + 1 := by
                    have := congrArg List.length heq2
                    simp [List.length_drop] at this
                    omega
                  split at h
                  · have hr : rest = r4 :=
                      ((Prod.ext_iff.mp (Option.some.inj h)).2).symm
                    subst hr
                    simp only [List.length_cons]
                    omega
                  · exact absurd h (by simp)
                · exact absurd h (by simp)
            · exact absurd h (by simp)
        · exact absurd h (by simp)
    · exact absurd h (by simp)

/-- The canonical extraction run: fuel equal to the input length. -/
def extractL (s : List Char) : List (String × Option String) :=
  extractLoop s.length s

theorem extractLoop_irrel : ∀ (f1 f2 : Nat) (s : List Char),
    s.length ≤ f1 → s.length ≤ f2 → extractLoop f1 s = extractLoop f2 s := by
  intro f1
  induction f1 with
  | zero =>
    intro f2 s h1 _
    have : s = [] := List.length_eq_zero.mp (Nat.le_zero.mp h1)
    subst this
    cases f2 <;> rfl
  | succ f1 ih =>
    intro f2 s h1 h2
    cases s with
    | nil => cases f2 <;> rfl
    | cons c cs =>
      cases f2 with
      | zero => simp at h2
      | succ g =>
        rcases hm : tryMatchAt (c :: cs) with _ | ⟨u, rest⟩
        · simp only [extractLoop, hm]
          exact ih g cs (by simpa using h1) (by simpa using h2)
        · simp only [extractLoop, hm]
          have hlt := tryMatchAt_rest_lt hm
          simp only [List.length_cons] at hlt h1 h2
          rw [ih g rest (by omega) (by omega)]

theorem extractL_cons_none (c : Char) (cs : List Char)
    (h : tryMatchAt (c :: cs) = none) : extractL (c :: cs) = extractL cs := by
  unfold extractL
  simp only [List.length_cons, extractLoop, h]

theorem extractL_cons_some (c : Char) (cs : List Char)
    (u : String × Option String) (rest : List Char)
    (h : tryMatchAt (c :: cs) = some (u, rest)) :
    extractL (c :: cs) = u :: extractL rest := by
  unfold extractL
  simp only [List.length_cons, extractLoop, h]
  have hlt := tryMatchAt_rest_lt h
  simp only [List.length_cons] at hlt
  rw [extractLoop_irrel cs.length rest.length rest (by omega) le_rfl]

theorem extractL_append_text (t rest : List Char)
    (h : ∀ c ∈ t, c ≠ lbrace) : extractL (t ++ rest) = extractL rest := by
  induction t with
  | nil => simp
  | cons c cs ih =>
    rw [List.cons_append,
      extractL_cons_none c (cs ++ rest)
        (tryMatchAt_none_of_not_lbrace c _ (h c (List.mem_cons_self c cs))),
      ih fun d hd => h d (List.mem_cons_of_mem c hd)]

theorem chunkChars_ph_shape (n : String) (p : Option String) :
    ∃ tail, chunkChars (Chunk.ph n p) = lbrace :: lbrace :: tail := by
  cases p <;> exact ⟨_, rfl⟩

theorem extractL_append_ph (n : String) (p : Option String) (rest : List Char)
    (hn : goodName n) (hp : ∀ q, p = some q → goodPart q) :
    extractL (chunkChars (Chunk.ph n p) ++ rest) = (n, p) :: extractL rest := by
  obtain ⟨tail, htail⟩ := chunkChars_ph_shape n p
  have hm := tryMatchAt_ph n p rest hn hp
  rw [htail] at hm ⊢
  rw [List.cons_append, List.cons_append] at hm ⊢
  exact extractL_cons_some _ _ _ _ hm

theorem extractL_flatten (chunks : List Chunk)
    (h : ∀ ch ∈ chunks, ChunkOk ch) :
    extractL (flattenChunks chunks) = chunks.filterMap chunkUsage := by
  induction chunks with
  | nil => rfl
  | cons ch rest ih =>
    have hok := h ch (List.mem_cons_self ch rest)
    have hrest := ih fun c hc => h c (List.mem_cons_of_mem ch hc)
    rw [flattenChunks, List.flatMap_cons, ← flattenChunks]
    cases ch with
    | text s =>
      rw [show chunkChars (Chunk.text s) = s from rfl,
        extractL_append_text _ _ fun c hc => ((hok c hc).1 : c ≠ lbrace),
        hrest]
      rfl
    | ph n p =>
      rw [extractL_append_ph n p _ hok.1 hok.2, hrest]
      rfl

theorem repListF_irrel (pat val : List Char) : ∀ (f1 f2 : Nat) (s : List Char),
    s.length ≤ f1 → s.length ≤ f2 →
    repListF pat val f1 s = repListF pat val f2 s := by
  intro f1
  induction f1 with
  | zero =>
    intro f2 s h1 _
    have : s = [] := List.length_eq_zero.mp (Nat.le_zero.mp h1)
    subst this
    cases f2 <;> rfl
  | succ f1 ih =>
    intro f2 s h1 h2
    cases s with
    | nil => cases f2 <;> rfl
    | cons c cs =>
      cases f2 with
      | zero => simp at h2
      | succ g =>
        simp only [repListF]
        simp only [List.length_cons] at h1 h2
        by_cases hc : pat ≠ [] ∧ pat.isPrefixOf (c :: cs)
        · rw [if_pos hc, if_pos hc]
          have hd : ((c :: cs).drop pat.length).length ≤ cs.length := by
            have hp1 : 1 ≤ pat.length :=
              Nat.one_le_iff_ne_zero.mpr (by
                simpa [List.length_eq_zero] using hc.1)
            simp [List.length_drop]
            omega
          rw [ih g _ (by omega) (by omega)]
        · rw [if_neg hc, if_neg hc]
          rw [ih g cs (by omega) (by omega)]

/-- The canonical replacement run. -/
theorem repL_nil (pat val : List Char) : repL pat val [] = [] := rfl

theorem repL_cons_match (pat val rest : List Char) (h : pat ≠ []) :
    repL pat val (pat ++ rest) = val ++ repL pat val rest := by
  obtain ⟨a, as, ha⟩ := List.exists_cons_of_ne_nil h
  subst ha
  unfold repL
  rw [List.cons_append]
  simp only [List.length_cons, List.length_append, repListF]
  rw [if_pos ⟨by simp, by
    rw [← List.cons_append]
    exact List.isPrefixOf_iff_prefix.mpr (List.prefix_append _ _)⟩]
  rw [show List.drop (as.length + 1) (a :: (as ++ rest)) = rest from by
    rw [List.drop_succ_cons]
    exact List.drop_left as rest]
  rw [repListF_irrel _ _ _ rest.length rest (by omega) le_rfl]

theorem repL_cons_skip (pat val : List Char) (c : Char) (cs : List Char)
    (h : ¬ pat.isPrefixOf (c :: cs)) :
    repL pat val (c :: cs) = c :: repL pat val cs := by
  unfold repL
  simp only [List.length_cons, repListF]
  rw [if_neg fun hc => h hc.2]

theorem not_isPrefixOf_cons_of_ne (a b : Char) (as bs : List Char)
    (h : a ≠ b) : ¬ (a :: as).isPrefixOf (b :: bs) := by
  intro hpre
  exact h (List.cons_prefix_cons.mp (List.isPrefixOf_iff_prefix.mp hpre)).1

theorem repL_append_text (pat val t rest : List Char) (pat' : List Char)
    (hpat : pat = lbrace :: pat') (h : ∀ c ∈ t, c ≠ lbrace) :
    repL pat val (t ++ rest) = t ++ repL pat val rest := by
  induction t with
  | nil => simp
  | cons c cs ih =>
    have hcne : c ≠ lbrace := h c (List.mem_cons_self c cs)
    rw [List.cons_append, repL_cons_skip pat val c (cs ++ rest) (by
      subst hpat
      exact not_isPrefixOf_cons_of_ne _ _ _ _ fun hlc => hcne hlc.symm)]
    rw [ih fun d hd => h d (List.mem_cons_of_mem c hd), List.cons_append]

/-- The interior of a placeholder literal: the name, or name/part. -/
def midOf (n : String) (p : Option String) : List Char :=
  match p with
  | none => n.data
  | some q => n.data ++ '/' :: q.data

theorem chunkChars_eq_mid (n : String) (p : Option String) :
    chunkChars (Chunk.ph n p) =
      lbrace :: lbrace :: (midOf n p ++ [rbrace, rbrace]) := by
  cases p <;>
    simp [chunkChars, midOf, placeholderAtomicL, placeholderSplitL,
      List.append_assoc]

theorem midOf_braceFree (n : String) (p : Option String) (hn : goodName n)
    (hp : ∀ q, p = some q → goodPart q) : braceFree (midOf n p) := by
  cases p with
  | none =>
    intro c hc
    exact ⟨(hn.2 c hc).1, (hn.2 c hc).2.1⟩
  | some q =>
    intro c hc
    rcases List.mem_append.mp hc with hc | hc
    · exact ⟨(hn.2 c hc).1, (hn.2 c hc).2.1⟩
    · rcases List.mem_cons.mp hc with hc | hc
      · subst hc
        constructor <;> decide
      · exact ⟨((hp q rfl).2 c hc).1, ((hp q rfl).2 c hc).2.1⟩

theorem midOf_ne_nil (n : String) (p : Option String) (hn : goodName n) :
    midOf n p ≠ [] := by
  cases p with
  | none => exact hn.1
  | some q => simp [midOf]

theorem slash_sep_inj (a : List Char) : ∀ (b x y : List Char),
    (∀ c ∈ a, c ≠ '/') → (∀ c ∈ b, c ≠ '/') →
    a ++ '/' :: x = b ++ '/' :: y → a = b ∧ x = y := by
  induction a with
  | nil =>
    intro b x y _ hb h
    cases b with
    | nil => simpa using h
    | cons bc bs =>
      rw [List.nil_append, List.cons_append] at h
      exact absurd ((List.cons.inj h).1.symm) (hb bc (List.mem_cons_self bc bs))
  | cons ac as ih =>
    intro b x y ha hb h
    cases b with
    | nil =>
      rw [List.nil_append, List.cons_append] at h
      exact absurd (List.cons.inj h).1 (ha ac (List.mem_cons_self ac as))
    | cons bc bs =>
      rw [List.cons_append, List.cons_append] at h
      obtain ⟨hh, ht⟩ := List.cons.inj h
      obtain ⟨h1, h2⟩ := ih bs x y (fun c hc => ha c (List.mem_cons_of_mem ac hc))
        (fun c hc => hb c (List.mem_cons_of_mem bc hc)) ht
      exact ⟨by rw [hh, h1], h2⟩

theorem string_data_inj {a b : String} (h : a.data = b.data) : a = b := by
  cases a; cases b; exact congrArg String.mk h

theorem midOf_inj (n1 n2 : String) (p1 p2 : Option String)
    (hn1 : goodName n1) (hn2 : goodName n2)
    (h : midOf n1 p1 = midOf n2 p2) : n1 = n2 ∧ p1 = p2 := by
  cases p1 with
  | none =>
    cases p2 with
    | none => exact ⟨string_data_inj h, rfl⟩
    | some q2 =>
      exfalso
      have : '/' ∈ n1.data := by
        rw [show n1.data = midOf n1 none from rfl, h]
        exact List.mem_append_right _ (List.mem_cons_self _ _)
      exact (hn1.2 '/' this).2.2.1 rfl
  | some q1 =>
    cases p2 with
    | none =>
      exfalso
      have : '/' ∈ n2.data := by
        rw [show n2.data = midOf n2 none from rfl, ← h]
        exact List.mem_append_right _ (List.mem_cons_self _ _)
      exact (hn2.2 '/' this).2.2.1 rfl
    | some q2 =>
      obtain ⟨h1, h2⟩ := slash_sep_inj n1.data n2.data q1.data q2.data
        (fun c hc => (hn1.2 c hc).2.2.1) (fun c hc => (hn2.2 c hc).2.2.1) h
      exact ⟨string_data_inj h1, by rw [string_data_inj h2]⟩

theorem prefix_rbrb_eq (mid1 : List Char) : ∀ (mid2 rest : List Char),
    (∀ c ∈ mid1, c ≠ rbrace) → (∀ c ∈ mid2, c ≠ rbrace) →
    (mid1 ++ [rbrace, rbrace]) <+: (mid2 ++ rbrace :: rbrace :: rest) →
    mid1 = mid2 := by
  induction mid1 with
  | nil =>
    intro mid2 rest _ h2 hpre
    cases mid2 with
    | nil => rfl
    | cons b bs =>
      rw [List.nil_append, List.cons_append] at hpre
      exact absurd (List.cons_prefix_cons.mp hpre).1.symm
        (h2 b (List.mem_cons_self b bs))
  | cons a as ih =>
    intro mid2 rest h1 h2 hpre
    cases mid2 with
    | nil =>
      rw [List.cons_append, List.nil_append] at hpre
      exact absurd (List.cons_prefix_cons.mp hpre).1
        (h1 a (List.mem_cons_self a as))
    | cons b bs =>
      rw [List.cons_append, List.cons_append] at hpre
      obtain ⟨hab, htail⟩ := List.cons_prefix_cons.mp hpre
      rw [hab, ih bs rest (fun c hc => h1 c (List.mem_cons_of_mem a hc))
        (fun c hc => h2 c (List.mem_cons_of_mem b hc)) htail]

theorem repL_append_ph (mid1 mid2 rest val : List Char)
    (h1 : braceFree mid1) (h2 : braceFree mid2)
    (hm2 : mid2 ≠ []) (hne : mid1 ≠ mid2) :
    repL (lbrace :: lbrace :: (mid1 ++ [rbrace, rbrace])) val
        ((lbrace :: lbrace :: (mid2 ++ [rbrace, rbrace])) ++ rest)
      = (lbrace :: lbrace :: (mid2 ++ [rbrace, rbrace])) ++
        repL (lbrace :: lbrace :: (mid1 ++ [rbrace, rbrace])) val rest := by
  obtain ⟨b, bs, hb⟩ := List.exists_cons_of_ne_nil hm2
  have hstep1 : ¬ (lbrace :: lbrace :: (mid1 ++ [rbrace, rbrace])).isPrefixOf
      (lbrace :: lbrace :: (mid2 ++ ([rbrace, rbrace] ++ rest))) := by
    intro hpre
    have h3 := (List.cons_prefix_cons.mp
      ((List.cons_prefix_cons.mp
        (List.isPrefixOf_iff_prefix.mp hpre)).2)).2
    rw [show [rbrace, rbrace] ++ rest = rbrace :: rbrace :: rest from rfl] at h3
    exact hne (prefix_rbrb_eq mid1 mid2 rest (fun c hc => (h1 c hc).2)
      (fun c hc => (h2 c hc).2) h3)
  have hstep2 : ¬ (lbrace :: lbrace :: (mid1 ++ [rbrace, rbrace])).isPrefixOf
      (lbrace :: (mid2 ++ ([rbrace, rbrace] ++ rest))) := by
    intro hpre
    have h3 := (List.cons_prefix_cons.mp
      (List.isPrefixOf_iff_prefix.mp hpre)).2
    rw [hb, List.cons_append] at h3
    exact (h2 b (hb ▸ List.mem_cons_self b bs)).1
      (List.cons_prefix_cons.mp h3).1.symm
  rw [List.cons_append, List.cons_append, List.append_assoc]
  rw [repL_cons_skip _ _ _ _ hstep1]
  rw [repL_cons_skip _ _ _ _ hstep2]
  rw [repL_append_text _ _ mid2 _ _ rfl fun c hc => (h2 c hc).1]
  rw [repL_append_text _ _ [rbrace, rbrace] _ _ rfl fun c hc => by
    have hcr : c = rbrace := by simpa using hc
    subst hcr
    decide]
  simp [List.append_assoc]

/-- The effect of one global placeholder replacement on a chunk: the
matching placeholder becomes the replacement text, everything else is
untouched. -/
def passChunk (n : String) (p : Option String) (val : List Char) :
    Chunk → Chunk
  | Chunk.ph m q => if m = n ∧ q = p then Chunk.text val else Chunk.ph m q
  | ch => ch

theorem passChunk_ok (n : String) (p : Option String) (val : List Char)
    (hval : braceFree val) (ch : Chunk) (h : ChunkOk ch) :
    ChunkOk (passChunk n p val ch) := by
  cases ch with
  | text s => exact h
  | ph m q =>
    by_cases hc : m = n ∧ q = p
    · simpa [passChunk, hc] using hval
    · simpa [passChunk, hc] using h

theorem repL_flatten (n : String) (p : Option String) (val : List Char)
    (hn : goodName n) (hp : ∀ q, p = some q → goodPart q) :
    ∀ chunks : List Chunk, (∀ ch ∈ chunks, ChunkOk ch) →
    repL (chunkChars (Chunk.ph n p)) val (flattenChunks chunks)
      = flattenChunks (chunks.map (passChunk n p val)) := by
  intro chunks hok
  induction chunks with
  | nil => rfl
  | cons ch rest ih =>
    have hchok := hok ch (List.mem_cons_self ch rest)
    have hrest := ih fun c hc => hok c (List.mem_cons_of_mem ch hc)
    rw [show flattenChunks (ch :: rest)
        = chunkChars ch ++ flattenChunks rest from rfl,
      List.map_cons,
      show flattenChunks (passChunk n p val ch :: rest.map (passChunk n p val))
        = chunkChars (passChunk n p val ch)
          ++ flattenChunks (rest.map (passChunk n p val)) from rfl]
    cases ch with
    | text s =>
      rw [show chunkChars (Chunk.text s) = s from rfl,
        chunkChars_eq_mid,
        repL_append_text _ _ s _ _ rfl (fun c hc => (hchok c hc).1),
        ← chunkChars_eq_mid, hrest]
      rfl
    | ph m q =>
      by_cases hc : m = n ∧ q = p
      · obtain ⟨hc1, hc2⟩ := hc
        subst hc1; subst hc2
        rw [chunkChars_eq_mid]
        have hchars_ne : lbrace :: lbrace :: (midOf m q ++ [rbrace, rbrace]) ≠ [] := by
          simp
        rw [repL_cons_match _ _ _ hchars_ne, ← chunkChars_eq_mid, hrest]
        simp [passChunk, flattenChunks, chunkChars]
      · rw [chunkChars_eq_mid, chunkChars_eq_mid,
          repL_append_ph (midOf n p) (midOf m q) _ _
            (midOf_braceFree n p hn hp)
            (midOf_braceFree m q hchok.1 hchok.2)
            (midOf_ne_nil m q hchok.1)
            (fun hmid => hc (midOf_inj m n q p hchok.1 hn hmid.symm))]
        rw [← chunkChars_eq_mid, ← chunkChars_eq_mid, hrest]
        have : passChunk n p val (Chunk.ph m q) = Chunk.ph m q := by
          simp [passChunk, hc]
        rw [this]

/-- The chunk-level effect of the split component's part-replacement loop. -/
def applyPartsChunk (n : String) (kv : List (String × String)) :
    List String → Chunk → Chunk
  | [], ch => ch
  | q :: qs, ch =>
    applyPartsChunk n kv qs
      (match kv.lookup q with
       | some v => passChunk n (some q) v.data ch
       | none => ch)

/-- The chunk-level effect of the whole replacement loop of
`generateRandomPreview`. -/
def applySelectedChunk (cmap : List (String × Component))
    (groups : List (String × List String)) :
    List (String × VariantVal) → Chunk → Chunk
  | [], ch => ch
  | nv :: rest, ch =>
    applySelectedChunk cmap groups rest
      (if ((cmap.lookup nv.1).getD ⟨false, []⟩).isSplit ∧
          (groups.lookup nv.1).getD [] ≠ [] then
        match nv.2 with
        | VariantVal.split kv =>
          applyPartsChunk nv.1 kv ((groups.lookup nv.1).getD []) ch
        | VariantVal.atomic _ => ch
      else passChunk nv.1 none (stringOfVariant nv.2).data ch)

/-- What the renderer does to a single chunk: a placeholder whose component
was selected gets its resolved value — the variant string for an atomic
placeholder of a non-split selection, the value at the named part for a
split placeholder — and is left in place (never an error) when the
component is unknown, the part key is missing from the selected split
variant's definition, or the placeholder shape does not fit the component. -/
def renderChunk (cmap : List (String × Component))
    (groups : List (String × List String))
    (selected : List (String × VariantVal)) : Chunk → Chunk
  | Chunk.text s => Chunk.text s
  | Chunk.ph n p =>
    match selected.lookup n with
    | none => Chunk.ph n p
    | some variant =>
      if ((cmap.lookup n).getD ⟨false, []⟩).isSplit ∧
          (groups.lookup n).getD [] ≠ [] then
        match p, variant with
        | some q, VariantVal.split kv =>
          (match kv.lookup q with
           | some v => Chunk.text v.data
           | none => Chunk.ph n p)
        | _, _ => Chunk.ph n p
      else
        match p with
        | none => Chunk.text (stringOfVariant variant).data
        | some _ => Chunk.ph n p

theorem lookup_mem {β : Type} (l : List (String × β)) (a : String) (b : β)
    (h : l.lookup a = some b) : (a, b) ∈ l := by
  induction l with
  | nil => cases h
  | cons e es ih =>
    obtain ⟨k, v⟩ := e
    rw [List.lookup] at h
    cases hae : (a == k) with
    | false =>
      rw [hae] at h
      exact List.mem_cons_of_mem _ (ih h)
    | true =>
      rw [hae] at h
      have hk : a = k := eq_of_beq hae
      have hb : b = v := (Option.some.inj h).symm
      subst hk
      subst hb
      exact List.mem_cons_self _ _

theorem applyPartsChunk_ok (n : String) (kv : List (String × String))
    (hkv : ∀ e ∈ kv, braceFree e.2.data) :
    ∀ (parts : List String) (ch : Chunk), ChunkOk ch →
    ChunkOk (applyPartsChunk n kv parts ch) := by
  intro parts
  induction parts with
  | nil => intro ch h; exact h
  | cons q qs ih =>
    intro ch h
    rw [applyPartsChunk]
    rcases hl : kv.lookup q with _ | v
    · exact ih ch h
    · exact ih _ (passChunk_ok n (some q) v.data
        (hkv (q, v) (lookup_mem kv q v hl)) ch h)

theorem applyPartsChunk_text (n : String) (kv : List (String × String))
    (parts : List String) (s : List Char) :
    applyPartsChunk n kv parts (Chunk.text s) = Chunk.text s := by
  induction parts with
  | nil => rfl
  | cons q qs ih =>
    rw [applyPartsChunk]
    rcases kv.lookup q with _ | v
    · exact ih
    · exact ih

theorem applyPartsChunk_other (n : String) (kv : List (String × String))
    (parts : List String) (m : String) (p : Option String) (h : m ≠ n) :
    applyPartsChunk n kv parts (Chunk.ph m p) = Chunk.ph m p := by
  induction parts with
  | nil => rfl
  | cons q qs ih =>
    rw [applyPartsChunk]
    rcases kv.lookup q with _ | v
    · exact ih
    · dsimp only
      rw [show passChunk n (some q) v.data (Chunk.ph m p) = Chunk.ph m p from by
        simp [passChunk, h]]
      exact ih

theorem applyPartsChunk_none (n : String) (kv : List (String × String))
    (parts : List String) :
    applyPartsChunk n kv parts (Chunk.ph n none) = Chunk.ph n none := by
  induction parts with
  | nil => rfl
  | cons q qs ih =>
    rw [applyPartsChunk]
    rcases kv.lookup q with _ | v
    · exact ih
    · dsimp only
      rw [show passChunk n (some q) v.data (Chunk.ph n none)
          = Chunk.ph n none from by simp [passChunk]]
      exact ih

theorem applyPartsChunk_miss (n : String) (kv : List (String × String))
    (q : String) (hq : kv.lookup q = none) :
    ∀ parts : List String,
    applyPartsChunk n kv parts (Chunk.ph n (some q)) = Chunk.ph n (some q) := by
  intro parts
  induction parts with
  | nil => rfl
  | cons q0 qs ih =>
    rw [applyPartsChunk]
    rcases hl : kv.lookup q0 with _ | v
    · exact ih
    · dsimp only
      rw [show passChunk n (some q0) v.data (Chunk.ph n (some q))
          = Chunk.ph n (some q) from by
        have : q ≠ q0 := fun hc => by rw [hc, hl] at hq; cases hq
        simp [passChunk, this]]
      exact ih

theorem applyPartsChunk_hit (n : String) (kv : List (String × String))
    (q : String) (v : String) (hv : kv.lookup q = some v) :
    ∀ parts : List String, q ∈ parts →
    applyPartsChunk n kv parts (Chunk.ph n (some q)) = Chunk.text v.data := by
  intro parts
  induction parts with
  | nil => intro h; cases h
  | cons q0 qs ih =>
    intro hmem
    rw [applyPartsChunk]
    by_cases hqq : q = q0
    · subst hqq
      rw [hv]
      dsimp only
      rw [show passChunk n (some q) v.data (Chunk.ph n (some q))
          = Chunk.text v.data from by simp [passChunk]]
      exact applyPartsChunk_text n kv qs v.data
    · have hmem' : q ∈ qs := by
        rcases List.mem_cons.mp hmem with hc | hc
        · exact absurd hc hqq
        · exact hc
      rcases hl : kv.lookup q0 with _ | v0
      · exact ih hmem'
      · dsimp only
        rw [show passChunk n (some q0) v0.data (Chunk.ph n (some q))
            = Chunk.ph n (some q) from by simp [passChunk, hqq]]
        exact ih hmem'

theorem subst_parts_flatten (n : String) (kv : List (String × String))
    (hn : goodName n) (hkv : ∀ e ∈ kv, braceFree e.2.data) :
    ∀ (parts : List String), (∀ q ∈ parts, goodPart q) →
    ∀ (chunks : List Chunk), (∀ ch ∈ chunks, ChunkOk ch) →
    List.foldl
      (fun res part =>
        match kv.lookup part with
        | some v =>
          repString res (String.mk (placeholderSplitL n.data part.data)) v
        | none => res)
      (String.mk (flattenChunks chunks)) parts
    = String.mk (flattenChunks
        (chunks.map fun ch => applyPartsChunk n kv parts ch)) := by
  intro parts
  induction parts with
  | nil =>
    intro _ chunks _
    rw [List.foldl_nil]
    congr 1
    rw [show (fun ch => applyPartsChunk n kv [] ch) = fun ch : Chunk => ch from
      rfl]
    rw [List.map_id']
  | cons q qs ih =>
    intro hparts chunks hok
    have hq : goodPart q := hparts q (List.mem_cons_self q qs)
    have hqs : ∀ r ∈ qs, goodPart r := fun r hr =>
      hparts r (List.mem_cons_of_mem q hr)
    rw [List.foldl_cons]
    rcases hl : kv.lookup q with _ | v
    · dsimp only
      rw [ih hqs chunks hok]
      congr 1
      congr 1
      apply List.map_congr_left
      intro ch _
      rw [applyPartsChunk, hl]
    · dsimp only
      have hvbf : braceFree v.data := hkv (q, v) (lookup_mem _ _ _ hl)
      have hstep : repString (String.mk (flattenChunks chunks))
          (String.mk (placeholderSplitL n.data q.data)) v
          = String.mk (flattenChunks
              (chunks.map (passChunk n (some q) v.data))) := by
        unfold repString
        congr 1
        show repL (placeholderSplitL n.data q.data) v.data
          (flattenChunks chunks) = _
        rw [show placeholderSplitL n.data q.data
            = chunkChars (Chunk.ph n (some q)) from rfl]
        exact repL_flatten n (some q) v.data hn
          (fun q' hq' => by cases hq'; exact hq) chunks hok
      rw [hstep, ih hqs (chunks.map (passChunk n (some q) v.data))
        (fun ch hc => by
          obtain ⟨ch0, hch0, hch0e⟩ := List.mem_map.mp hc
          exact hch0e ▸ passChunk_ok n (some q) v.data hvbf ch0 (hok ch0 hch0))]
      rw [List.map_map]
      congr 1
      congr 1
      apply List.map_congr_left
      intro ch _
      show applyPartsChunk n kv qs (passChunk n (some q) v.data ch)
        = applyPartsChunk n kv (q :: qs) ch
      rw [show applyPartsChunk n kv (q :: qs) ch
          = applyPartsChunk n kv qs (passChunk n (some q) v.data ch) from by
        rw [applyPartsChunk, hl]]

theorem objectObject_braceFree :
    braceFree (stringOfVariant (VariantVal.split [])).data := by decide

theorem stringOfVariant_braceFree (w : VariantVal) (h : VariantValOk w) :
    braceFree (stringOfVariant w).data := by
  cases w with
  | atomic s => exact h
  | split kv => exact objectObject_braceFree

theorem substitute_flatten (cmap : List (String × Component))
    (groups : List (String × List String))
    (hgroups : ∀ g ∈ groups, ∀ q ∈ g.2, goodPart q) :
    ∀ (selected : List (String × VariantVal)),
    (∀ nv ∈ selected, goodName nv.1 ∧ VariantValOk nv.2) →
    ∀ (chunks : List Chunk), (∀ ch ∈ chunks, ChunkOk ch) →
    substitute cmap groups selected (String.mk (flattenChunks chunks))
      = String.mk (flattenChunks (chunks.map
          (applySelectedChunk cmap groups selected))) := by
  intro selected
  induction selected with
  | nil =>
    intro _ chunks _
    rw [substitute, List.foldl_nil]
    congr 1
    rw [show applySelectedChunk cmap groups [] = fun ch : Chunk => ch from rfl]
    rw [List.map_id']
  | cons nv rest ih =>
    intro hsel chunks hok
    obtain ⟨n, w⟩ := nv
    obtain ⟨hname, hvok⟩ := hsel (n, w) (List.mem_cons_self _ _)
    have hrest : ∀ nv ∈ rest, goodName nv.1 ∧ VariantValOk nv.2 :=
      fun e he => hsel e (List.mem_cons_of_mem _ he)
    have hpartsOk : ∀ q ∈ (groups.lookup n).getD [], goodPart q := by
      rcases hg : groups.lookup n with _ | ps
      · simp
      · intro q hq
        exact hgroups (n, ps) (lookup_mem _ _ _ hg) q (by simpa using hq)
    rw [substitute, List.foldl_cons]
    by_cases hbr : ((cmap.lookup n).getD ⟨false, []⟩).isSplit ∧
        (groups.lookup n).getD [] ≠ []
    · cases w with
      | split kv =>
        have hkvbf : ∀ e ∈ kv, braceFree e.2.data := by
          intro e he
          exact hvok e he
        have hstep := subst_parts_flatten n kv hname hkvbf
          ((groups.lookup n).getD []) hpartsOk chunks hok
        dsimp only
        rw [if_pos hbr]
        rw [hstep]
        have hok' : ∀ ch ∈ chunks.map fun ch =>
            applyPartsChunk n kv ((groups.lookup n).getD []) ch, ChunkOk ch := by
          intro ch hc
          obtain ⟨ch0, hch0, hch0e⟩ := List.mem_map.mp hc
          exact hch0e ▸ applyPartsChunk_ok n kv hkvbf _ ch0 (hok ch0 hch0)
        rw [show List.foldl _ (String.mk (flattenChunks (chunks.map fun ch =>
            applyPartsChunk n kv ((groups.lookup n).getD []) ch))) rest
            = substitute cmap groups rest (String.mk (flattenChunks
              (chunks.map fun ch =>
                applyPartsChunk n kv ((groups.lookup n).getD []) ch))) from rfl]
        rw [ih hrest _ hok', List.map_map]
        congr 1
        congr 1
        apply List.map_congr_left
        intro ch _
        show applySelectedChunk cmap groups rest
            (applyPartsChunk n kv ((groups.lookup n).getD []) ch)
          = applySelectedChunk cmap groups ((n, VariantVal.split kv) :: rest) ch
        rw [show applySelectedChunk cmap groups
              ((n, VariantVal.split kv) :: rest) ch
            = applySelectedChunk cmap groups rest
                (applyPartsChunk n kv ((groups.lookup n).getD []) ch) from by
          rw [applySelectedChunk, if_pos hbr]]
      | atomic s =>
        dsimp only
        rw [if_pos hbr]
        rw [show List.foldl _ (String.mk (flattenChunks chunks)) rest
            = substitute cmap groups rest
                (String.mk (flattenChunks chunks)) from rfl]
        rw [ih hrest chunks hok]
        congr 1
        congr 1
        apply List.map_congr_left
        intro ch _
        show applySelectedChunk cmap groups rest ch
          = applySelectedChunk cmap groups ((n, VariantVal.atomic s) :: rest) ch
        rw [show applySelectedChunk cmap groups
              ((n, VariantVal.atomic s) :: rest) ch
            = applySelectedChunk cmap groups rest ch from by
          rw [applySelectedChunk, if_pos hbr]]
    · dsimp only
      rw [if_neg hbr]
      have hvbf : braceFree (stringOfVariant w).data :=
        stringOfVariant_braceFree w hvok
      have hstep : repString (String.mk (flattenChunks chunks))
          (String.mk (placeholderAtomicL n.data)) (stringOfVariant w)
          = String.mk (flattenChunks
              (chunks.map (passChunk n none (stringOfVariant w).data))) := by
        unfold repString
        congr 1
        show repL (placeholderAtomicL n.data) (stringOfVariant w).data
          (flattenChunks chunks) = _
        rw [show placeholderAtomicL n.data
            = chunkChars (Chunk.ph n none) from rfl]
        exact repL_flatten n none (stringOfVariant w).data hname
          (fun q' hq' => by cases hq') chunks hok
      rw [hstep]
      have hok' : ∀ ch ∈ chunks.map (passChunk n none (stringOfVariant w).data),
          ChunkOk ch := by
        intro ch hc
        obtain ⟨ch0, hch0, hch0e⟩ := List.mem_map.mp hc
        exact hch0e ▸ passChunk_ok n none _ hvbf ch0 (hok ch0 hch0)
      rw [show List.foldl _ (String.mk (flattenChunks
          (chunks.map (passChunk n none (stringOfVariant w).data)))) rest
          = substitute cmap groups rest (String.mk (flattenChunks
            (chunks.map (passChunk n none (stringOfVariant w).data)))) from rfl]
      rw [ih hrest _ hok', List.map_map]
      congr 1
      congr 1
      apply List.map_congr_left
      intro ch _
      show applySelectedChunk cmap groups rest
          (passChunk n none (stringOfVariant w).data ch)
        = applySelectedChunk cmap groups ((n, w) :: rest) ch
      rw [show applySelectedChunk cmap groups ((n, w) :: rest) ch
          = applySelectedChunk cmap groups rest
              (passChunk n none (stringOfVariant w).data ch) from by
        rw [applySelectedChunk, if_neg hbr]]

theorem applySelectedChunk_text (cmap : List (String × Component))
    (groups : List (String × List String)) :
    ∀ (selected : List (String × VariantVal)) (s : List Char),
    applySelectedChunk cmap groups selected (Chunk.text s) = Chunk.text s := by
  intro selected
  induction selected with
  | nil => intro s; rfl
  | cons nv rest ih =>
    intro s
    rw [applySelectedChunk]
    by_cases hbr : ((cmap.lookup nv.1).getD ⟨false, []⟩).isSplit ∧
        (groups.lookup nv.1).getD [] ≠ []
    · rw [if_pos hbr]
      cases hw : nv.2 with
      | split kv =>
        dsimp only
        rw [applyPartsChunk_text]
        exact ih s
      | atomic a =>
        dsimp only
        exact ih s
    · rw [if_neg hbr]
      rw [show passChunk nv.1 none (stringOfVariant nv.2).data (Chunk.text s)
          = Chunk.text s from rfl]
      exact ih s

theorem applySelectedChunk_skip (cmap : List (String × Component))
    (groups : List (String × List String)) :
    ∀ (selected : List (String × VariantVal)) (n : String) (p : Option String),
    n ∉ selected.map Prod.fst →
    applySelectedChunk cmap groups selected (Chunk.ph n p) = Chunk.ph n p := by
  intro selected
  induction selected with
  | nil => intro n p _; rfl
  | cons nv rest ih =>
    intro n p hmem
    have hne : n ≠ nv.1 := by
      intro hc
      exact hmem (by rw [List.map_cons]; exact hc ▸ List.mem_cons_self _ _)
    have hrest : n ∉ rest.map Prod.fst := by
      intro hc
      exact hmem (by rw [List.map_cons]; exact List.mem_cons_of_mem _ hc)
    rw [applySelectedChunk]
    by_cases hbr : ((cmap.lookup nv.1).getD ⟨false, []⟩).isSplit ∧
        (groups.lookup nv.1).getD [] ≠ []
    · rw [if_pos hbr]
      cases hw : nv.2 with
      | split kv =>
        dsimp only
        rw [applyPartsChunk_other _ _ _ _ _ hne]
        exact ih n p hrest
      | atomic a =>
        dsimp only
        exact ih n p hrest
    · rw [if_neg hbr]
      rw [show passChunk nv.1 none (stringOfVariant nv.2).data (Chunk.ph n p)
          = Chunk.ph n p from by simp [passChunk, hne]]
      exact ih n p hrest

theorem lookup_cons_ne {β : Type} (k : String) (b : β)
    (l : List (String × β)) (a : String) (h : a ≠ k) :
    ((k, b) :: l).lookup a = l.lookup a := by
  rw [List.lookup]
  rw [show (a == k) = false from by simpa using h]

theorem lookup_cons_eq {β : Type} (k : String) (b : β)
    (l : List (String × β)) : ((k, b) :: l).lookup k = some b := by
  rw [List.lookup]
  rw [show (k == k) = true from by simp]

theorem applySelected_eq_render (cmap : List (String × Component))
    (groups : List (String × List String)) :
    ∀ (selected : List (String × VariantVal)),
    (selected.map Prod.fst).Nodup →
    ∀ (ch : Chunk),
    (∀ n q, ch = Chunk.ph n (some q) → (selected.lookup n).isSome →
      ((cmap.lookup n).getD ⟨false, []⟩).isSplit →
      (groups.lookup n).getD [] ≠ [] →
      q ∈ (groups.lookup n).getD []) →
    applySelectedChunk cmap groups selected ch
      = renderChunk cmap groups selected ch := by
  intro selected hnd ch
  induction selected with
  | nil =>
    intro _
    cases ch with
    | text s => rfl
    | ph n p => rfl
  | cons nv rest ih =>
    intro hcov
    obtain ⟨n0, w⟩ := nv
    have hnd' : (rest.map Prod.fst).Nodup := (List.nodup_cons.mp hnd).2
    have hn0rest : n0 ∉ rest.map Prod.fst := (List.nodup_cons.mp hnd).1
    cases ch with
    | text s =>
      rw [applySelectedChunk_text]
      rfl
    | ph n p =>
      by_cases hname : n = n0
      · subst hname
        have hlook : (((n, w) :: rest).lookup n) = some w := lookup_cons_eq n w rest
        rw [applySelectedChunk]
        by_cases hbr : ((cmap.lookup n).getD ⟨false, []⟩).isSplit ∧
            (groups.lookup n).getD [] ≠ []
        · rw [if_pos hbr]
          cases w with
          | split kv =>
            dsimp only
            cases p with
            | none =>
              rw [applyPartsChunk_none, applySelectedChunk_skip cmap groups rest
                n none hn0rest]
              rw [renderChunk, hlook]
              dsimp only
              rw [if_pos hbr]
            | some q =>
              have hqparts : q ∈ (groups.lookup n).getD [] :=
                hcov n q rfl (by rw [hlook]; rfl) hbr.1 hbr.2
              rcases hkv : kv.lookup q with _ | v
              · rw [applyPartsChunk_miss _ _ _ hkv,
                  applySelectedChunk_skip cmap groups rest n (some q) hn0rest]
                rw [renderChunk, hlook]
                dsimp only
                rw [if_pos hbr]
                rw [hkv]
              · rw [applyPartsChunk_hit _ _ _ _ hkv _ hqparts,
                  applySelectedChunk_text]
                rw [renderChunk, hlook]
                dsimp only
                rw [if_pos hbr]
                rw [hkv]
          | atomic a =>
            dsimp only
            rw [applySelectedChunk_skip cmap groups rest n p hn0rest]
            rw [renderChunk, hlook]
            dsimp only
            rw [if_pos hbr]
            cases p <;> rfl
        · rw [if_neg hbr]
          cases p with
          | none =>
            rw [show passChunk n none (stringOfVariant w).data
                (Chunk.ph n none) = Chunk.text (stringOfVariant w).data from by
              simp [passChunk]]
            rw [applySelectedChunk_text]
            rw [renderChunk, hlook]
            dsimp only
            rw [if_neg hbr]
          | some q =>
            rw [show passChunk n none (stringOfVariant w).data
                (Chunk.ph n (some q)) = Chunk.ph n (some q) from by
              simp [passChunk]]
            rw [applySelectedChunk_skip cmap groups rest n (some q) hn0rest]
            rw [renderChunk, hlook]
            dsimp only
            rw [if_neg hbr]
      · have hstep : applySelectedChunk cmap groups ((n0, w) :: rest)
            (Chunk.ph n p)
            = applySelectedChunk cmap groups rest (Chunk.ph n p) := by
          rw [applySelectedChunk]
          by_cases hbr : ((cmap.lookup n0).getD ⟨false, []⟩).isSplit ∧
              (groups.lookup n0).getD [] ≠ []
          · rw [if_pos hbr]
            cases w with
            | split kv =>
              dsimp only
              rw [applyPartsChunk_other _ _ _ _ _ hname]
            | atomic a => rfl
          · rw [if_neg hbr]
            rw [show passChunk n0 none (stringOfVariant w).data
                (Chunk.ph n p) = Chunk.ph n p from by simp [passChunk, hname]]
        rw [hstep]
        have hlook : (((n0, w) :: rest).lookup n) = rest.lookup n :=
          lookup_cons_ne n0 w rest n hname
        rw [ih hnd' fun m q hch hsome hs hp => by
          have hmn : n = m := by cases hch; rfl
          exact hcov m q hch
            (by rw [lookup_cons_ne n0 w rest m (hmn ▸ hname)]; exact hsome)
            hs hp]
        rw [show renderChunk cmap groups ((n0, w) :: rest) (Chunk.ph n p)
            = renderChunk cmap groups rest (Chunk.ph n p) from by
          rw [renderChunk, renderChunk, hlook]]

theorem lookup_append_some {β : Type} (l1 l2 : List (String × β)) (a : String)
    (b : β) (h : l1.lookup a = some b) : (l1 ++ l2).lookup a = some b := by
  induction l1 with
  | nil => cases h
  | cons e es ih =>
    obtain ⟨k, v⟩ := e
    rw [List.cons_append, List.lookup] at *
    cases hae : (a == k) with
    | true => rw [hae] at h; dsimp only at h ⊢; exact h
    | false => rw [hae] at h; dsimp only at h ⊢; exact ih h

theorem lookup_append_none {β : Type} (l1 l2 : List (String × β)) (a : String)
    (h : l1.lookup a = none) : (l1 ++ l2).lookup a = l2.lookup a := by
  induction l1 with
  | nil => rfl
  | cons e es ih =>
    obtain ⟨k, v⟩ := e
    rw [List.cons_append, List.lookup] at *
    cases hae : (a == k) with
    | true => rw [hae] at h; dsimp only at h; cases h
    | false => rw [hae] at h; dsimp only at h ⊢; exact ih h

theorem lookup_eq_none_of_not_mem_keys {β : Type} (l : List (String × β))
    (a : String) (h : a ∉ l.map Prod.fst) : l.lookup a = none := by
  induction l with
  | nil => rfl
  | cons e es ih =>
    obtain ⟨k, v⟩ := e
    rw [List.lookup]
    have hk : a ≠ k := by
      intro hc
      apply h
      rw [List.map_cons]
      exact hc ▸ List.mem_cons_self a (es.map Prod.fst)
    rw [show (a == k) = false from by simpa using hk]
    apply ih
    intro hc
    apply h
    rw [List.map_cons]
    exact List.mem_cons_of_mem _ hc

theorem lookup_isSome_of_mem_keys {β : Type} (l : List (String × β))
    (a : String) (h : a ∈ l.map Prod.fst) : ∃ b, l.lookup a = some b := by
  induction l with
  | nil => cases h
  | cons e es ih =>
    obtain ⟨k, v⟩ := e
    by_cases hk : a = k
    · subst hk
      exact ⟨v, lookup_cons_eq a v es⟩
    · rw [lookup_cons_ne k v es a hk]
      apply ih
      rw [List.map_cons] at h
      rcases List.mem_cons.mp h with hc | hc
      · exact absurd hc hk
      · exact hc

theorem lookup_map_push (l : List (String × List String)) (n : String)
    (q : String) :
    ((l.map fun g => if g.1 == n then (g.1, g.2 ++ [q]) else g).lookup n)
      = (l.lookup n).map fun ps => ps ++ [q] := by
  induction l with
  | nil => rfl
  | cons e es ih =>
    obtain ⟨k, ps⟩ := e
    rw [List.map_cons]
    by_cases hk : k = n
    · subst hk
      dsimp only
      rw [if_pos (show ((k == k) = true) from by simp)]
      rw [lookup_cons_eq, lookup_cons_eq]
      rfl
    · dsimp only
      rw [if_neg (show ¬ ((k == n) = true) from by simpa using hk)]
      rw [lookup_cons_ne k ps _ n fun hc => hk hc.symm]
      rw [lookup_cons_ne k ps es n fun hc => hk hc.symm]
      exact ih

theorem lookup_map_push_other (l : List (String × List String)) (n m q : String)
    (h : m ≠ n) :
    ((l.map fun g => if g.1 == n then (g.1, g.2 ++ [q]) else g).lookup m)
      = l.lookup m := by
  induction l with
  | nil => rfl
  | cons e es ih =>
    obtain ⟨k, ps⟩ := e
    rw [List.map_cons]
    by_cases hk : k = n
    · subst hk
      dsimp only
      rw [if_pos (show ((k == k) = true) from by simp)]
      rw [lookup_cons_ne k (ps ++ [q]) _ m h]
      rw [lookup_cons_ne k ps es m h]
      exact ih
    · dsimp only
      rw [if_neg (show ¬ ((k == n) = true) from by simpa using hk)]
      by_cases hmk : m = k
      · subst hmk
        rw [lookup_cons_eq, lookup_cons_eq]
      · rw [lookup_cons_ne k ps _ m hmk]
        rw [lookup_cons_ne k ps es m hmk]
        exact ih

theorem buildGroups_names (cmap : List (String × Component))
    (N : String → Prop) :
    ∀ (us : List (String × Option String)) (groups0 : List (String × List String)),
    (∀ u ∈ us, N u.1) → (∀ g ∈ groups0, N g.1) →
    ∀ g ∈ buildGroups cmap us groups0, N g.1 := by
  intro us
  induction us with
  | nil => intro groups0 _ hg0; exact hg0
  | cons u us ih =>
    intro groups0 hus hg0
    have hustail : ∀ w ∈ us, N w.1 := fun w hw => hus w (List.mem_cons_of_mem u hw)
    rw [buildGroups]
    by_cases hm : (cmap.lookup u.1).isNone
    · rw [if_pos hm]
      exact ih groups0 hustail hg0
    · rw [if_neg hm]
      dsimp only
      apply ih _ hustail
      have hwe : ∀ g ∈ (if groups0.any fun g => g.1 == u.1 then groups0
          else groups0 ++ [(u.1, [])]), N g.1 := by
        split
        · exact hg0
        · intro g hg
          rcases List.mem_append.mp hg with hc | hc
          · exact hg0 g hc
          · rw [List.mem_singleton.mp hc]
            exact hus u (List.mem_cons_self u us)
      rcases u.2 with _ | p
      · exact hwe
      · dsimp only
        by_cases hp : p = ""
        · rw [if_pos hp]; exact hwe
        · rw [if_neg hp]
          intro g hg
          obtain ⟨g0, hg0m, hge⟩ := List.mem_map.mp hg
          have hN := hwe g0 hg0m
          rw [← hge]
          by_cases hb : (g0.1 == u.1) = true
          · rw [if_pos hb]; exact hN
          · rw [if_neg hb]; exact hN

theorem buildGroups_parts (cmap : List (String × Component))
    (Q : String → Prop) :
    ∀ (us : List (String × Option String)) (groups0 : List (String × List String)),
    (∀ u ∈ us, ∀ q, u.2 = some q → q = "" ∨ Q q) →
    (∀ g ∈ groups0, ∀ q ∈ g.2, Q q) →
    ∀ g ∈ buildGroups cmap us groups0, ∀ q ∈ g.2, Q q := by
  intro us
  induction us with
  | nil => intro groups0 _ hg0; exact hg0
  | cons u us ih =>
    intro groups0 hus hg0
    have hustail : ∀ w ∈ us, ∀ q, w.2 = some q → q = "" ∨ Q q :=
      fun w hw => hus w (List.mem_cons_of_mem u hw)
    rw [buildGroups]
    by_cases hm : (cmap.lookup u.1).isNone
    · rw [if_pos hm]
      exact ih groups0 hustail hg0
    · rw [if_neg hm]
      dsimp only
      apply ih _ hustail
      have hwe : ∀ g ∈ (if groups0.any fun g => g.1 == u.1 then groups0
          else groups0 ++ [(u.1, [])]), ∀ q ∈ g.2, Q q := by
        split
        · exact hg0
        · intro g hg
          rcases List.mem_append.mp hg with hc | hc
          · exact hg0 g hc
          · rw [List.mem_singleton.mp hc]
            intro q hq
            cases hq
      rcases hu2 : u.2 with _ | p
      · exact hwe
      · dsimp only
        by_cases hp : p = ""
        · rw [if_pos hp]; exact hwe
        · rw [if_neg hp]
          intro g hg
          obtain ⟨g0, hg0m, hge⟩ := List.mem_map.mp hg
          have hQ0 := hwe g0 hg0m
          have hQp : Q p := by
            rcases hus u (List.mem_cons_self u us) p hu2 with hc | hc
            · exact absurd hc hp
            · exact hc
          rw [← hge]
          by_cases hb : (g0.1 == u.1) = true
          · rw [if_pos hb]
            intro q hq
            rcases List.mem_append.mp hq with hc | hc
            · exact hQ0 q hc
            · rw [List.mem_singleton.mp hc]
              exact hQp
          · rw [if_neg hb]
            exact hQ0

theorem buildGroups_mono (cmap : List (String × Component)) :
    ∀ (us : List (String × Option String)) (groups0 : List (String × List String))
      (n : String) (q : String),
    q ∈ (groups0.lookup n).getD [] →
    q ∈ ((buildGroups cmap us groups0).lookup n).getD [] := by
  intro us
  induction us with
  | nil => intro groups0 n q h; exact h
  | cons u us ih =>
    intro groups0 n q h
    obtain ⟨ps, hps, hqps⟩ : ∃ ps, groups0.lookup n = some ps ∧ q ∈ ps := by
      rcases hl : groups0.lookup n with _ | ps
      · rw [hl] at h; cases h
      · rw [hl] at h; exact ⟨ps, rfl, h⟩
    rw [buildGroups]
    by_cases hm : (cmap.lookup u.1).isNone
    · rw [if_pos hm]
      exact ih groups0 n q h
    · rw [if_neg hm]
      dsimp only
      apply ih
      have hwe : ∃ ps', (if groups0.any fun g => g.1 == u.1 then groups0
          else groups0 ++ [(u.1, [])]).lookup n = some ps' ∧ q ∈ ps' := by
        split
        · exact ⟨ps, hps, hqps⟩
        · exact ⟨ps, lookup_append_some _ _ _ _ hps, hqps⟩
      obtain ⟨ps', hps', hqps'⟩ := hwe
      rcases u.2 with _ | p
      · rw [hps']; exact hqps'
      · dsimp only
        by_cases hp : p = ""
        · rw [if_pos hp, hps']; exact hqps'
        · rw [if_neg hp]
          by_cases hn : u.1 = n
          · subst hn
            rw [lookup_map_push, hps']
            exact List.mem_append_left _ hqps'
          · rw [lookup_map_push_other _ _ _ _ fun hc => hn hc.symm, hps']
            exact hqps'

theorem buildGroups_hit (cmap : List (String × Component)) :
    ∀ (us : List (String × Option String)) (groups0 : List (String × List String))
      (n : String) (q : String),
    (n, some q) ∈ us → q ≠ "" → ¬ (cmap.lookup n).isNone →
    q ∈ ((buildGroups cmap us groups0).lookup n).getD [] := by
  intro us
  induction us with
  | nil => intro groups0 n q h; cases h
  | cons u us ih =>
    intro groups0 n q hmem hq hcm
    rcases List.mem_cons.mp hmem with heq | htail
    · subst heq
      rw [buildGroups]
      rw [if_neg hcm]
      dsimp only
      rw [if_neg hq]
      have hwe : ∃ ps, (if groups0.any fun g => g.1 == (n, some q).1 then groups0
          else groups0 ++ [((n, some q).1, [])]).lookup n = some ps := by
        dsimp only
        by_cases hany : groups0.any fun g => g.1 == n
        · rw [if_pos hany]
          obtain ⟨g, hgmem, hgbeq⟩ := List.any_eq_true.mp hany
          exact lookup_isSome_of_mem_keys groups0 n
            (List.mem_map.mpr ⟨g, hgmem, eq_of_beq hgbeq⟩)
        · rw [if_neg hany]
          have h0 : groups0.lookup n = none := by
            apply lookup_eq_none_of_not_mem_keys
            intro hc
            obtain ⟨g, hgmem, hge⟩ := List.mem_map.mp hc
            apply hany
            rw [List.any_eq_true]
            exact ⟨g, hgmem, by simpa using hge⟩
          rw [lookup_append_none _ _ _ h0, lookup_cons_eq]
          exact ⟨[], rfl⟩
      obtain ⟨ps, hps⟩ := hwe
      apply buildGroups_mono
      rw [lookup_map_push, hps]
      exact List.mem_append_right _ (List.mem_singleton_self q)
    · rw [buildGroups]
      by_cases hm : (cmap.lookup u.1).isNone
      · rw [if_pos hm]
        exact ih groups0 n q htail hq hcm
      · rw [if_neg hm]
        dsimp only
        exact ih _ n q htail hq hcm

theorem buildGroups_nodup (cmap : List (String × Component)) :
    ∀ (us : List (String × Option String)) (groups0 : List (String × List String)),
    (groups0.map Prod.fst).Nodup →
    ((buildGroups cmap us groups0).map Prod.fst).Nodup := by
  intro us
  induction us with
  | nil => intro groups0 h; exact h
  | cons u us ih =>
    intro groups0 h0
    rw [buildGroups]
    by_cases hm : (cmap.lookup u.1).isNone
    · rw [if_pos hm]
      exact ih groups0 h0
    · rw [if_neg hm]
      dsimp only
      apply ih
      have hwe : ((if groups0.any fun g => g.1 == u.1 then groups0
          else groups0 ++ [(u.1, [])]).map Prod.fst).Nodup := by
        split
        · exact h0
        · next hany =>
          rw [List.map_append]
          apply List.Nodup.append h0 (List.nodup_singleton _)
          intro a ha hb
          have ha' : a = u.1 := by simpa using hb
          subst ha'
          obtain ⟨g, hgmem, hge⟩ := List.mem_map.mp ha
          exact hany (List.any_eq_true.mpr ⟨g, hgmem, by simpa using hge⟩)
      rcases u.2 with _ | p
      · exact hwe
      · dsimp only
        by_cases hp : p = ""
        · rw [if_pos hp]; exact hwe
        · rw [if_neg hp]
          rw [List.map_map]
          rw [show (Prod.fst ∘ fun g : String × List String =>
              if g.1 == u.1 then (g.1, g.2 ++ [p]) else g) = Prod.fst from by
            funext g
            by_cases hb : (g.1 == u.1) = true
            · simp [Function.comp, hb]
            · simp [Function.comp, hb]]
          exact hwe

theorem selectVariants_fst_sublist (cmap : List (String × Component))
    (groups : List (String × List String)) (pick : String → Nat) :
    ((selectVariants cmap groups pick).map Prod.fst).Sublist
      (groups.map Prod.fst) := by
  induction groups with
  | nil => exact List.Sublist.refl []
  | cons g gs ih =>
    rw [selectVariants, List.filterMap_cons]
    rcases hc : cmap.lookup g.1 with _ | comp
    · dsimp only
      rw [List.map_cons]
      exact ih.cons g.1
    · dsimp only
      by_cases he : comp.variants.isEmpty
      · rw [if_pos he, List.map_cons]
        exact ih.cons g.1
      · rw [if_neg he, List.map_cons, List.map_cons]
        exact ih.cons₂ g.1

theorem selectVariants_mem (cmap : List (String × Component))
    (groups : List (String × List String)) (pick : String → Nat)
    (n : String) (v : VariantVal)
    (h : (n, v) ∈ selectVariants cmap groups pick) :
    ∃ comp, cmap.lookup n = some comp ∧ v ∈ comp.variants ∧
      n ∈ groups.map Prod.fst := by
  obtain ⟨g, hg, hfg⟩ := List.mem_filterMap.mp h
  rcases hc : cmap.lookup g.1 with _ | comp
  · rw [hc] at hfg; cases hfg
  · rw [hc] at hfg
    dsimp only at hfg
    by_cases he : comp.variants.isEmpty
    · rw [if_pos he] at hfg; cases hfg
    · rw [if_neg he] at hfg
      obtain ⟨h1, h2⟩ := Prod.ext_iff.mp (Option.some.inj hfg)
      dsimp only at h1 h2
      have hlen : 0 < comp.variants.length := by
        by_contra hcon
        push_neg at hcon
        have hnil : comp.variants = [] :=
          List.length_eq_zero.mp (Nat.le_zero.mp hcon)
        rw [hnil] at he
        exact he rfl
      have hidx : pick g.1 % comp.variants.length < comp.variants.length :=
        Nat.mod_lt _ hlen
      refine ⟨comp, h1 ▸ hc, ?_, List.mem_map.mpr ⟨g, hg, h1⟩⟩
      rw [← h2]
      rw [List.getD_eq_getElem _ _ hidx]
      exact List.getElem_mem _

/-- C10 amended: on any well-formed template — brace-free literal runs,
placeholder names and parts that are non-empty, free of braces, whitespace
and regex metacharacters (so the code's brace-only-escaped `RegExp` is a
literal matcher), and variant values free of braces and of the dollar
character (so `replace` inserts them verbatim) — the renderer substitutes
every occurrence of every placeholder with its resolved value — the
variant string for an atomic placeholder of a non-split selection, the
value at the named part for a split placeholder — and leaves a placeholder
in place, raising no error, when its component is unknown, has no
variants, or the referenced part key is missing from the selected split
variant's definition. -/
theorem C10_renderer_amended :
    ∀ (chunks : List Chunk) (cmap : List (String × Component))
      (pick : String → Nat),
      (∀ ch ∈ chunks, ChunkOkJs ch) →
      (∀ e ∈ cmap, ComponentOkJs e.2) →
      generateRandomPreview (String.mk (flattenChunks chunks)) cmap pick =
        String.mk (flattenChunks (chunks.map
          (renderChunk cmap
            (buildGroups cmap (chunks.filterMap chunkUsage) [])
            (selectVariants cmap
              (buildGroups cmap (chunks.filterMap chunkUsage) []) pick)))) := by
  intro chunks cmap pick hokJs hcmJs
  have hok : ∀ ch ∈ chunks, ChunkOk ch :=
    fun ch hc => chunkOk_of_js ch (hokJs ch hc)
  have hcm : ∀ e ∈ cmap, ComponentOk e.2 :=
    fun e he => componentOk_of_js e.2 (hcmJs e he)
  have husages : extractComponentsFromTemplate
      (String.mk (flattenChunks chunks)) = chunks.filterMap chunkUsage := by
    show extractL (flattenChunks chunks) = _
    exact extractL_flatten chunks hok
  have husgood : ∀ u ∈ chunks.filterMap chunkUsage,
      goodName u.1 ∧ ∀ q, u.2 = some q → goodPart q := by
    intro u hu
    obtain ⟨ch, hch, hche⟩ := List.mem_filterMap.mp hu
    cases ch with
    | text s => exact absurd hche (by simp [chunkUsage])
    | ph n p =>
      cases hche
      exact ⟨(hok _ hch).1, (hok _ hch).2⟩
  simp only [generateRandomPreview]
  rw [husages]
  by_cases hemp : (chunks.filterMap chunkUsage).isEmpty
  · rw [if_pos hemp]
    rw [show chunks.map (renderChunk cmap
        (buildGroups cmap (chunks.filterMap chunkUsage) [])
        (selectVariants cmap
          (buildGroups cmap (chunks.filterMap chunkUsage) []) pick))
        = chunks from by
      rw [show chunks = chunks.map id from (List.map_id chunks).symm]
      rw [List.map_map]
      apply List.map_congr_left
      intro ch hc
      cases ch with
      | text s => rfl
      | ph n p =>
        exfalso
        have hmem : (n, p) ∈ chunks.filterMap chunkUsage :=
          List.mem_filterMap.mpr ⟨Chunk.ph n p, hc, rfl⟩
        rw [List.isEmpty_iff.mp hemp] at hmem
        cases hmem]
  · rw [if_neg hemp]
    have hgnodup : ((buildGroups cmap (chunks.filterMap chunkUsage) []).map
        Prod.fst).Nodup :=
      buildGroups_nodup cmap (chunks.filterMap chunkUsage) [] (by simp)
    have hsnodup : ((selectVariants cmap
        (buildGroups cmap (chunks.filterMap chunkUsage) []) pick).map
        Prod.fst).Nodup :=
      hgnodup.sublist (selectVariants_fst_sublist cmap _ pick)
    have hgroupgood : ∀ g ∈ buildGroups cmap (chunks.filterMap chunkUsage) [],
        ∀ q ∈ g.2, goodPart q := by
      apply buildGroups_parts cmap goodPart (chunks.filterMap chunkUsage) []
        ?_ (by intro g hg; cases hg)
      intro u hu q hq
      exact Or.inr ((husgood u hu).2 q hq)
    have hselgood : ∀ nv ∈ selectVariants cmap
        (buildGroups cmap (chunks.filterMap chunkUsage) []) pick,
        goodName nv.1 ∧ VariantValOk nv.2 := by
      intro nv hnv
      obtain ⟨n, v⟩ := nv
      obtain ⟨comp, hcomp, hvmem, hnmem⟩ :=
        selectVariants_mem cmap _ pick n v hnv
      constructor
      · obtain ⟨g, hgmem, hge⟩ := List.mem_map.mp hnmem
        have := buildGroups_names cmap goodName (chunks.filterMap chunkUsage)
          [] (fun u hu => (husgood u hu).1) (by intro g hg; cases hg) g hgmem
        exact hge ▸ this
      · exact hcm (n, comp) (lookup_mem cmap n comp hcomp) v hvmem
    rw [substitute_flatten cmap _ hgroupgood _ hselgood chunks hok]
    congr 1
    congr 1
    apply List.map_congr_left
    intro ch hch
    apply applySelected_eq_render cmap _ _ hsnodup ch
    intro n q hche hsome hsplit hparts
    subst hche
    have hqgood : goodPart q := (hok _ hch).2 q rfl
    have hqne : q ≠ "" := by
      intro hc
      subst hc
      exact hqgood.1 rfl
    have hmemus : (n, some q) ∈ chunks.filterMap chunkUsage :=
      List.mem_filterMap.mpr ⟨_, hch, rfl⟩
    have hcmn : ¬ (cmap.lookup n).isNone := by
      obtain ⟨v, hv⟩ := Option.isSome_iff_exists.mp hsome
      obtain ⟨comp, hcomp, -, -⟩ :=
        selectVariants_mem cmap _ pick n v (lookup_mem _ n v hv)
      rw [hcomp]
      simp
    exact buildGroups_hit cmap (chunks.filterMap chunkUsage) [] n q hmemus
      hqne hcmn

/-- A concrete template: literal text around one split placeholder. -/
def C10chunks : List Chunk :=
  [Chunk.text "x ".data, Chunk.ph "c" (some "a"), Chunk.text " y".data]

theorem C10_amended_witness :
    generateRandomPreview (String.mk (flattenChunks C10chunks)) missingPartMap
        (fun _ => 0)
      = String.mk (flattenChunks (C10chunks.map
          (renderChunk missingPartMap
            (buildGroups missingPartMap (C10chunks.filterMap chunkUsage) [])
            (selectVariants missingPartMap
              (buildGroups missingPartMap (C10chunks.filterMap chunkUsage) [])
              (fun _ => 0))))) :=
  C10_renderer_amended C10chunks missingPartMap (fun _ => 0) (by decide)
    (by decide)

end Benchpress
